import Mathlib

/-!
# Glare detector: map pipeline of `glare_detector.cpp`

A shallow embedding of `src/glare_detection/src/glare_detector.cpp`.

Conventions of the embedding.

* A `cv::Mat` is a `Mat α`: its `rows`, its `cols`, and the accessor `px y x`
  (the source's `at<T>(y, x)`).  Only pixels with `y < rows` and `x < cols`
  exist in the source; statements quantify over those.
* A finite `float` or `double` value is the rational number it denotes.  An
  operation of IEEE 754 arithmetic is the exact operation followed by
  `rd32` (binary32) or `rd64` (binary64): rounding to nearest, ties to even,
  with an unbounded exponent range (no overflow or underflow occurs for the
  magnitudes of these functions).  A literal `0.9995f` is `rd32 0.9995`.
  NaN and the infinities are not represented: where the source passes a
  negative number to `cv::sqrt` the library returns NaN, and the statements
  say so by the sign of the argument.
* 8-bit values (`uchar`) are natural numbers; channels of a frame are `Fin 256`.
* OpenCV primitives that the source calls are embedded by their arithmetic
  (`convertTo`, `threshold`, `boxFilter`, `normalize`, `mean`, `meanStdDev`,
  `cvtColor`, `contourArea`, `arcLength`).  Sums of 8-bit pixels and of window
  samples, which the library accumulates in `int` or `double`, are exact.
  The square root (`cv::sqrt`, `std::sqrt`), the contour extraction
  (`cv::findContours`) and the filling of a contour (`cv::drawContours`)
  are parameters.
* `computeLocalContrast` is embedded twice: in exact arithmetic
  (`computeLocalContrast`) and with the rounding of every operation
  (`computeLocalContrastF`).
-/

namespace GlareDetector

/-! ## Matrices -/

/-- A matrix with `rows × cols` pixels; `px y x` is the source's `at(y, x)`. -/
structure Mat (α : Type) where
  rows : Nat
  cols : Nat
  px : Nat → Nat → α

namespace Mat

variable {α β γ : Type}

/-- The matrix `Mat(rows, cols, type, v)`: every pixel is `v`. -/
def const (rows cols : Nat) (v : α) : Mat α :=
  ⟨rows, cols, fun _ _ => v⟩

/-- Assignment `m.at(y, x) = v`. -/
def set (m : Mat α) (y x : Nat) (v : α) : Mat α :=
  ⟨m.rows, m.cols, fun i j => if i = y ∧ j = x then v else m.px i j⟩

/-- Element-wise operation with a result of the same size. -/
def map (f : α → β) (m : Mat α) : Mat β :=
  ⟨m.rows, m.cols, fun y x => f (m.px y x)⟩

/-- Element-wise operation on two matrices; the result has the size of the
first. -/
def zipWith (f : α → β → γ) (a : Mat α) (b : Mat β) : Mat γ :=
  ⟨a.rows, a.cols, fun y x => f (a.px y x) (b.px y x)⟩

/-- The pixels of a matrix in row-major order. -/
def pixels (m : Mat α) : List α :=
  (List.range m.rows).flatMap fun y => (List.range m.cols).map fun x => m.px y x

end Mat

/-! ## Floating-point arithmetic -/

/-- OpenCV's `cvRound`: the nearest integer, ties to the even one. -/
def cvRound (v : ℚ) : ℤ :=
  let f := ⌊v⌋
  let d := v - f
  if d < 1 / 2 then f else if 1 / 2 < d then f + 1 else if f % 2 = 0 then f else f + 1

/-- Rounding to the nearest number with `prec` significant bits, ties to even:
the rounding of IEEE 754 arithmetic, with an unbounded exponent range. -/
def roundFloat (prec : Nat) (x : ℚ) : ℚ :=
  if x = 0 then 0
  else
    let ulp : ℚ := 2 ^ (Int.log 2 |x| - prec + 1)
    cvRound (x / ulp) * ulp

/-- Rounding to `float` (binary32, 24 significant bits). -/
def rd32 (x : ℚ) : ℚ :=
  roundFloat 24 x

/-- Rounding to `double` (binary64, 53 significant bits). -/
def rd64 (x : ℚ) : ℚ :=
  roundFloat 53 x

/-- The numbers with at most `prec` significant bits. -/
def IsFloat (prec : Nat) (x : ℚ) : Prop :=
  ∃ m k : ℤ, |m| < 2 ^ prec ∧ x = m * 2 ^ k

/-- The constant `DBL_EPSILON`. -/
def DBL_EPSILON : ℚ := 1 / 2 ^ 52

/-! ## `computePriorityMap` -/

/-- OpenCV's `saturate_cast<uchar>` of a floating-point value: `cvRound`, then
clamped to `0 .. 255`. -/
def saturateU8 (v : ℚ) : Nat :=
  (max 0 (min 255 (cvRound v))).toNat

/-- `src.convertTo(dst, CV_8UC1, alpha)`: each value is `saturate_cast<uchar>(alpha * v)`.
Line 73 passes no scale, so `alpha = 1`. -/
def convertTo8U (src : Mat ℚ) (alpha : ℚ) : Mat Nat :=
  src.map fun v => saturateU8 (v * alpha)

/-- `cv::threshold(src, dst, thresh, maxval, cv::THRESH_BINARY)`. -/
def threshold (src : Mat Nat) (thresh maxval : Nat) : Mat Nat :=
  src.map fun v => if v > thresh then maxval else 0

/-- The macro `CV_PI` of OpenCV. -/
def CV_PI : ℚ := 3.1415926535897932384626433832795

/-- A contour returned by `cv::findContours`: its points `(x, y)` in order. -/
abbrev Contour := List (Int × Int)

/-- The pairs (previous point, point) that `cv::contourArea` and
`cv::arcLength(.., true)` walk: the point before the first is the last. -/
def closedEdges (contour : Contour) : List ((Int × Int) × (Int × Int)) :=
  match contour.getLast? with
  | none => []
  | some last => List.zip (last :: contour) contour

/-- `cv::contourArea(contour)`: half the absolute value of the sum of
`prev.x * p.y - prev.y * p.x` over the closed contour, accumulated in
`double`; for the coordinates of an image the products and the sum are
exact. -/
def contourArea (contour : Contour) : ℚ :=
  |((closedEdges contour).map fun e => ((e.1.1 * e.2.2 - e.1.2 * e.2.1 : Int) : ℚ)).sum| * 0.5

/-- `cv::arcLength(contour, true)`: 0 for fewer than two points; otherwise the
`float` lengths `sqrt(dx * dx + dy * dy)` of the edges of the closed contour,
added up in a `double`.  The coordinates of an image and their differences
`dx`, `dy` are exact as `float`.  `sqrtF` is the square root on `float`. -/
def arcLength (sqrtF : ℚ → ℚ) (contour : Contour) : ℚ :=
  if contour.length ≤ 1 then 0
  else
    (closedEdges contour).foldl
      (fun perimeter e =>
        let dx : ℚ := ((e.2.1 - e.1.1 : Int) : ℚ)
        let dy : ℚ := ((e.2.2 - e.1.2 : Int) : ℚ)
        rd64 (perimeter + sqrtF (rd32 (rd32 (dx * dx) + rd32 (dy * dy)))))
      0

/-- Line 85: `4.0 * CV_PI * area / (perimeter * perimeter)` in `double`;
`rd64 CV_PI` is the `double` that the macro denotes. -/
def circularity (area perimeter : ℚ) : ℚ :=
  rd64 (rd64 (rd64 (4.0 * rd64 CV_PI) * area) / rd64 (perimeter * perimeter))

/-- Lines 85-86: the circularity of a region and its clamp; `rd64 1.2` is the
literal `1.2`. -/
def circularityOf (area perimeter : ℚ) : ℚ :=
  if circularity area perimeter > rd64 1.2 then 1 else circularity area perimeter

/-- `cv::drawContours(ggeo, {contour}, -1, cv::Scalar(v), cv::FILLED)` on the
`CV_32FC1` map: `filled contour y x` tells whether the library writes pixel
`(y, x)`; the `double` of the scalar is stored as a `float`. -/
def drawContoursFilled (filled : Contour → Nat → Nat → Bool) (ggeo : Mat ℚ)
    (contour : Contour) (v : ℚ) : Mat ℚ :=
  ⟨ggeo.rows, ggeo.cols, fun y x => if filled contour y x then rd32 v else ggeo.px y x⟩

/-- The body of the loop over contours (lines 81-89); `continue` leaves the
map as it is. -/
def geometricStep (sqrtF : ℚ → ℚ) (filled : Contour → Nat → Nat → Bool) (ggeo : Mat ℚ)
    (contour : Contour) : Mat ℚ :=
  let area := contourArea contour
  let perimeter := arcLength sqrtF contour
  if area < 1 ∨ perimeter < 4 then ggeo
  else drawContoursFilled filled ggeo contour (circularityOf area perimeter)

/-- The loop of lines 80-90 over a list of contours. -/
def geometricLoop (sqrtF : ℚ → ℚ) (filled : Contour → Nat → Nat → Bool)
    (contours : List Contour) (ggeo : Mat ℚ) : Mat ℚ :=
  contours.foldl (geometricStep sqrtF filled) ggeo

/-- The binary mask of lines 72-74: conversion to 8 bits without a scale, then
the threshold at 200. -/
def binaryMask (gphoto : Mat ℚ) : Mat Nat :=
  threshold (convertTo8U gphoto 1) 200 255

/-- `glare_detector::computeGeometricMap` (lines 64-93).  `findContours` is
the library's contour extraction on the binary mask. -/
def computeGeometricMap (findContours : Mat Nat → List Contour) (sqrtF : ℚ → ℚ)
    (filled : Contour → Nat → Nat → Bool) (gphoto : Mat ℚ) : Mat ℚ :=
  geometricLoop sqrtF filled (findContours (binaryMask gphoto))
    (Mat.const gphoto.rows gphoto.cols 0)

/-- The rescale that the specification asks for before the threshold:
multiply by 255, then truncate. -/
def rescale8USpec (v : ℚ) : Nat :=
  (max 0 (min 255 ⌊255 * v⌋)).toNat

/-- `glare_detector::combineMaps` (lines 96-98). -/
def combineMaps (gphoto ggeo : Mat ℚ) : Mat ℚ :=
  ⟨gphoto.rows, gphoto.cols, fun y x => 1.0 * gphoto.px y x + 1.0 * ggeo.px y x⟩

/-! ## `computeLocalContrast` -/

/-- OpenCV's `borderInterpolate(p, len, BORDER_REFLECT_101)`, the border mode
that `cv::boxFilter` uses by default: indices outside `0 .. len - 1` are
reflected about the first and the last pixel (`gfedcb|abcdefgh|gfedcba`); a
line of one pixel is replicated. -/
def borderInterpolate (p : ℤ) (len : Nat) : Nat :=
  if len ≤ 1 then 0
  else
    let period : ℤ := 2 * ((len : ℤ) - 1)
    let q := p % period
    if q < len then q.toNat else (period - q).toNat

/-- `cv::boxFilter(src, dst, CV_32F, cv::Size(ksize, ksize))`: the mean over
the `ksize x ksize` window centred on the pixel (anchor `ksize / 2`), with the
default border mode. -/
def boxFilter (src : Mat ℚ) (ksize : Nat) : Mat ℚ :=
  ⟨src.rows, src.cols, fun y x =>
    (∑ d in Finset.range ksize ×ˢ Finset.range ksize,
      src.px (borderInterpolate ((y : ℤ) + d.1 - (ksize / 2 : Nat)) src.rows)
        (borderInterpolate ((x : ℤ) + d.2 - (ksize / 2 : Nat)) src.cols))
      / ((ksize : ℚ) * ksize)⟩

/-- The argument of `cv::sqrt` at line 54: `meanSqr - mean.mul(mean)`. -/
def localVariance (intensity : Mat ℚ) : Mat ℚ :=
  Mat.zipWith (· - ·)
    (boxFilter (Mat.zipWith (· * ·) intensity intensity) 17)
    (Mat.zipWith (· * ·) (boxFilter intensity 17) (boxFilter intensity 17))

/-- A pixel of a 3-channel 8-bit frame, in the channel order B, G, R. -/
structure Pixel where
  b : Fin 256
  g : Fin 256
  r : Fin 256

/-- `cv::normalize(src, dst, alpha, beta, cv::NORM_MINMAX)` on a `CV_32F`
matrix: with `smin`, `smax` the extrema of the source and `dmin`, `dmax` the
smaller and the larger of `alpha`, `beta`, the library computes in `double`
`scale = (dmax - dmin) * (smax - smin > DBL_EPSILON ? 1. / (smax - smin) : 0)`,
narrows it to `float`, takes `shift = (float)dmin - (float)(smin * scale)`, and
stores `src * scale + shift` computed on `float`. -/
def normalizeMinMax (src : Mat ℚ) (alpha beta : ℚ) : Mat ℚ :=
  match src.pixels with
  | [] => src
  | v :: vs =>
    let smin := vs.foldl min v
    let smax := vs.foldl max v
    let dmin := min alpha beta
    let dmax := max alpha beta
    let scale :=
      rd32 (rd64 ((dmax - dmin) *
        (if rd64 (smax - smin) > DBL_EPSILON then rd64 (1 / rd64 (smax - smin)) else 0)))
    let shift := rd32 (rd32 dmin - rd32 (rd64 (smin * scale)))
    src.map fun v => rd32 (rd32 (v * scale) + shift)

/-- `cv::COLOR_BGR2GRAY` for 8-bit input: the library's 15-bit fixed-point
luminance `(3735 B + 19235 G + 9798 R + 2^14) >> 15`. -/
def bgr2gray (p : Pixel) : Nat :=
  (p.b.val * 3735 + p.g.val * 19235 + p.r.val * 9798 + 16384) / 32768

/-- `cv::cvtColor(frame, gray, cv::COLOR_BGR2GRAY)`; an empty frame raises an
error. -/
def cvtColorGray (frame : Mat Pixel) : Option (Mat Nat) :=
  if frame.rows = 0 ∨ frame.cols = 0 then none else some (frame.map bgr2gray)

/-- Sum of the pixels of an 8-bit matrix. -/
def pixelSum (m : Mat Nat) : ℚ :=
  (m.pixels.map fun (v : Nat) => (v : ℚ)).sum

/-- `cv::mean(gray)[0]`: the sum times the `double` `1. / count`. -/
def mean (gray : Mat Nat) : ℚ :=
  rd64 (pixelSum gray * rd64 (1 / ((gray.rows * gray.cols : Nat) : ℚ)))

/-- `glare_detector::isBrightArea` (lines 162-167). -/
def isBrightArea (frame : Mat Pixel) : Option ℚ :=
  (cvtColorGray frame).map fun gray => rd64 (mean gray / 255)

/-- `cv::meanStdDev(gray, mean, stddev)`: with the `double`
`scale = 1. / count`, the mean is `s = sum * scale` and the deviation is
`sqrt(max(sqsum * scale - s * s, 0.))`. -/
def meanStdDev (sqrtF : ℚ → ℚ) (gray : Mat Nat) : ℚ × ℚ :=
  let scale := rd64 (1 / ((gray.rows * gray.cols : Nat) : ℚ))
  let s := rd64 (pixelSum gray * scale)
  let sq := rd64 (pixelSum (gray.map fun v => v * v) * scale)
  (s, sqrtF (max (rd64 (sq - rd64 (s * s))) 0))

/-- `glare_detector::isStandardArea` (lines 170-180).  `sqrtF` is the square
root on `double` that `cv::meanStdDev` computes. -/
def isStandardArea (sqrtF : ℚ → ℚ) (frame : Mat Pixel) : Option ℚ :=
  (cvtColorGray frame).map fun gray => rd64 ((meanStdDev sqrtF gray).2 / 128.0)

/-! ## Square roots and a frame for the examples -/

/-- A computable square root used to instantiate `sqrtF` in examples: it is
exact on squares of rationals. -/
def sqrtSample (q : ℚ) : ℚ :=
  Rat.sqrt q

/-- A computable monotone square root used to instantiate `sqrtF` in
examples: the square root rounded down to 64 fractional bits. -/
def sqrtDown (q : ℚ) : ℚ :=
  (Nat.sqrt ⌊q * 4 ^ 64⌋₊ : ℚ) / 2 ^ 64

theorem cvRound_of_floor (t : ℚ) (f : ℤ) (h1 : (f : ℚ) ≤ t) (h2 : t < f + 1) :
    cvRound t = if t - f < 1 / 2 then f else if 1 / 2 < t - f then f + 1
      else if f % 2 = 0 then f else f + 1 := by
  have hf : ⌊t⌋ = f := Int.floor_eq_iff.mpr ⟨h1, h2⟩
  unfold cvRound
  simp only [hf]

theorem cvRound_sub_le (t : ℚ) : |(cvRound t : ℚ) - t| ≤ 1 / 2 := by
  have h1 := Int.floor_le t
  have h2 := Int.lt_floor_add_one t
  rw [cvRound_of_floor t ⌊t⌋ h1 h2, abs_le]
  split_ifs with a b c
  · constructor <;> linarith
  · push_cast; constructor <;> linarith
  · constructor <;> linarith
  · push_cast; constructor <;> linarith

theorem cvRound_eq_of_abs_lt (t : ℚ) (n : ℤ) (h : |t - n| < 1 / 2) : cvRound t = n := by
  have h1 := abs_le.mp (cvRound_sub_le t)
  have h2 := abs_lt.mp h
  have h3 : ((cvRound t - n : ℤ) : ℚ) < 1 := by push_cast; linarith [h1.2, h2.1]
  have h4 : (-1 : ℚ) < ((cvRound t - n : ℤ) : ℚ) := by push_cast; linarith [h1.1, h2.2]
  have h5 : cvRound t - n < 1 := by exact_mod_cast h3
  have h6 : -1 < cvRound t - n := by exact_mod_cast h4
  omega

theorem cvRound_intCast (n : ℤ) : cvRound (n : ℚ) = n :=
  cvRound_eq_of_abs_lt _ n (by simp)

theorem cvRound_mono {s t : ℚ} (h : s ≤ t) : cvRound s ≤ cvRound t := by
  by_contra hlt
  have hlt2 : cvRound t + 1 ≤ cvRound s := by omega
  have h1 := abs_le.mp (cvRound_sub_le s)
  have h2 := abs_le.mp (cvRound_sub_le t)
  have h3 : ((cvRound t : ℤ) : ℚ) + 1 ≤ cvRound s := by exact_mod_cast hlt2
  have hst : s = t := by linarith [h1.2, h2.1]
  rw [hst] at hlt
  exact hlt (le_refl _)

/-! ### Rounding to a floating-point format -/

theorem two_zpow_pos (e : ℤ) : (0 : ℚ) < 2 ^ e := zpow_pos (by norm_num) e

theorem log_eq_of_binade (x : ℚ) (e : ℤ) (h1 : 2 ^ e ≤ |x|) (h2 : |x| < 2 ^ (e + 1)) :
    Int.log 2 |x| = e := by
  have hpos : 0 < |x| := lt_of_lt_of_le (two_zpow_pos e) h1
  have ha : e ≤ Int.log 2 |x| :=
    (Int.zpow_le_iff_le_log (by norm_num : 1 < 2) hpos).mp (by simpa using h1)
  have hb : Int.log 2 |x| < e + 1 :=
    (Int.lt_zpow_iff_log_lt (by norm_num : 1 < 2) hpos).mp (by simpa using h2)
  omega

theorem binade_of_ne_zero (x : ℚ) (hx : x ≠ 0) :
    2 ^ Int.log 2 |x| ≤ |x| ∧ |x| < 2 ^ (Int.log 2 |x| + 1) := by
  have hpos : 0 < |x| := abs_pos.mpr hx
  constructor
  · simpa using Int.zpow_log_le_self (by norm_num : 1 < 2) hpos
  · simpa using Int.lt_zpow_succ_log_self (by norm_num : 1 < 2) |x|

theorem roundFloat_of_binade (p : Nat) (x : ℚ) (e : ℤ) (h1 : 2 ^ e ≤ |x|)
    (h2 : |x| < 2 ^ (e + 1)) :
    roundFloat p x = cvRound (x / 2 ^ (e - p + 1)) * 2 ^ (e - p + 1) := by
  have hx : x ≠ 0 := by
    intro h
    rw [h, abs_zero] at h1
    exact absurd h1 (not_le.mpr (two_zpow_pos e))
  unfold roundFloat
  rw [if_neg hx]
  simp only [log_eq_of_binade x e h1 h2]

/-- Evaluation of a rounding: `n` is the nearest multiple of the unit in the last place. -/
theorem roundFloat_eq_of (p : Nat) (x : ℚ) (e n : ℤ) (h1 : 2 ^ e ≤ |x|)
    (h2 : |x| < 2 ^ (e + 1)) (hn : |x / 2 ^ (e - p + 1) - n| < 1 / 2) :
    roundFloat p x = n * 2 ^ (e - p + 1) := by
  rw [roundFloat_of_binade p x e h1 h2, cvRound_eq_of_abs_lt _ n hn]

theorem roundFloat_zero (p : Nat) : roundFloat p 0 = 0 := by
  simp [roundFloat]

theorem roundFloat_nonneg (p : Nat) {x : ℚ} (h : 0 ≤ x) : 0 ≤ roundFloat p x := by
  unfold roundFloat
  split_ifs with h0
  · exact le_refl 0
  · have hu := two_zpow_pos (Int.log 2 |x| - p + 1)
    have h1 : cvRound 0 ≤ cvRound (x / 2 ^ (Int.log 2 |x| - p + 1)) :=
      cvRound_mono (div_nonneg h (le_of_lt hu))
    have h2 : cvRound 0 = 0 := by simpa using cvRound_intCast 0
    rw [h2] at h1
    exact mul_nonneg (by exact_mod_cast h1) (le_of_lt hu)

theorem roundFloat_nonpos (p : Nat) {x : ℚ} (h : x ≤ 0) : roundFloat p x ≤ 0 := by
  unfold roundFloat
  split_ifs with h0
  · exact le_refl 0
  · have hu := two_zpow_pos (Int.log 2 |x| - p + 1)
    have h1 : cvRound (x / 2 ^ (Int.log 2 |x| - p + 1)) ≤ cvRound 0 :=
      cvRound_mono (div_nonpos_of_nonpos_of_nonneg h (le_of_lt hu))
    have h2 : cvRound 0 = 0 := by simpa using cvRound_intCast 0
    rw [h2] at h1
    exact mul_nonpos_of_nonpos_of_nonneg (by exact_mod_cast h1) (le_of_lt hu)

/-- The absolute error of a rounding is at most half a unit in the last place. -/
theorem roundFloat_abs_err (p : Nat) (x : ℚ) (e : ℤ) (h1 : 2 ^ e ≤ |x|)
    (h2 : |x| < 2 ^ (e + 1)) : |roundFloat p x - x| ≤ 2 ^ (e - p) := by
  have hu := two_zpow_pos (e - p + 1)
  rw [roundFloat_of_binade p x e h1 h2]
  have hc := cvRound_sub_le (x / 2 ^ (e - p + 1))
  have heq : (cvRound (x / 2 ^ (e - p + 1)) : ℚ) * 2 ^ (e - p + 1) - x
      = ((cvRound (x / 2 ^ (e - p + 1)) : ℚ) - x / 2 ^ (e - p + 1)) * 2 ^ (e - p + 1) := by
    field_simp
  rw [heq, abs_mul, abs_of_pos hu]
  have hhalf : (2 : ℚ) ^ (e - p + 1) = 2 * 2 ^ (e - p) := by
    rw [zpow_add_one₀ (by norm_num : (2 : ℚ) ≠ 0)]; ring
  calc |(cvRound (x / 2 ^ (e - p + 1)) : ℚ) - x / 2 ^ (e - p + 1)| * 2 ^ (e - p + 1)
      ≤ 1 / 2 * 2 ^ (e - p + 1) := mul_le_mul_of_nonneg_right hc (le_of_lt hu)
    _ = 2 ^ (e - p) := by rw [hhalf]; ring

/-- The relative error of a rounding is at most `2 ^ (-p)`. -/
theorem roundFloat_rel_err (p : Nat) (x : ℚ) : |roundFloat p x - x| ≤ |x| * 2 ^ (-(p : ℤ)) := by
  by_cases hx : x = 0
  · subst hx; simp [roundFloat_zero]
  · have hb := binade_of_ne_zero x hx
    have h := roundFloat_abs_err p x _ hb.1 hb.2
    have hsplit : (2 : ℚ) ^ (Int.log 2 |x| - p) = 2 ^ Int.log 2 |x| * 2 ^ (-(p : ℤ)) := by
      rw [← zpow_add₀ (by norm_num : (2 : ℚ) ≠ 0)]; rfl
    rw [hsplit] at h
    exact le_trans h (mul_le_mul_of_nonneg_right hb.1 (le_of_lt (two_zpow_pos _)))


theorem two_pow_mul_ulp (q : Nat) (e : ℤ) :
    ((2 ^ q : ℤ) : ℚ) * 2 ^ (e - (q + 1 : Nat) + 1) = 2 ^ e := by
  push_cast
  rw [← zpow_natCast (2 : ℚ) q, ← zpow_add₀ (by norm_num : (2 : ℚ) ≠ 0)]
  congr 1
  ring

theorem two_pow_succ_mul_ulp (q : Nat) (e : ℤ) :
    ((2 ^ (q + 1) : ℤ) : ℚ) * 2 ^ (e - (q + 1 : Nat) + 1) = 2 ^ (e + 1) := by
  push_cast
  rw [← zpow_natCast (2 : ℚ) (q + 1), ← zpow_add₀ (by norm_num : (2 : ℚ) ≠ 0)]
  congr 1
  push_cast
  ring

/-- Rounding keeps a positive number in the closure of its binade. -/
theorem roundFloat_binade (p : Nat) (hp : 1 ≤ p) (x : ℚ) (e : ℤ) (h1 : 2 ^ e ≤ x)
    (h2 : x < 2 ^ (e + 1)) : 2 ^ e ≤ roundFloat p x ∧ roundFloat p x ≤ 2 ^ (e + 1) := by
  obtain ⟨q, rfl⟩ : ∃ q, p = q + 1 := ⟨p - 1, by omega⟩
  have hx : 0 < x := lt_of_lt_of_le (two_zpow_pos e) h1
  have habs : |x| = x := abs_of_pos hx
  have hu := two_zpow_pos (e - (q + 1 : Nat) + 1)
  rw [roundFloat_of_binade (q + 1) x e (by rw [habs]; exact h1) (by rw [habs]; exact h2)]
  constructor
  · have hA : ((2 ^ q : ℤ) : ℚ) ≤ x / 2 ^ (e - (q + 1 : Nat) + 1) := by
      rw [le_div_iff₀ hu, two_pow_mul_ulp]; exact h1
    have hm := cvRound_mono hA
    rw [cvRound_intCast] at hm
    have hm2 : ((2 ^ q : ℤ) : ℚ) ≤ (cvRound (x / 2 ^ (e - (q + 1 : Nat) + 1)) : ℚ) := by
      exact_mod_cast hm
    calc (2 : ℚ) ^ e = ((2 ^ q : ℤ) : ℚ) * 2 ^ (e - (q + 1 : Nat) + 1) :=
          (two_pow_mul_ulp q e).symm
      _ ≤ _ := mul_le_mul_of_nonneg_right hm2 (le_of_lt hu)
  · have hB : x / 2 ^ (e - (q + 1 : Nat) + 1) ≤ ((2 ^ (q + 1) : ℤ) : ℚ) := by
      rw [div_le_iff₀ hu, two_pow_succ_mul_ulp]; exact le_of_lt h2
    have hm := cvRound_mono hB
    rw [cvRound_intCast] at hm
    have hm2 : (cvRound (x / 2 ^ (e - (q + 1 : Nat) + 1)) : ℚ) ≤ ((2 ^ (q + 1) : ℤ) : ℚ) := by
      exact_mod_cast hm
    calc _ ≤ ((2 ^ (q + 1) : ℤ) : ℚ) * 2 ^ (e - (q + 1 : Nat) + 1) :=
          mul_le_mul_of_nonneg_right hm2 (le_of_lt hu)
      _ = 2 ^ (e + 1) := two_pow_succ_mul_ulp q e

/-- Rounding is monotone on the non-negative numbers. -/
theorem roundFloat_mono (p : Nat) (hp : 1 ≤ p) {x y : ℚ} (hx : 0 ≤ x) (hxy : x ≤ y) :
    roundFloat p x ≤ roundFloat p y := by
  rcases eq_or_lt_of_le hx with h0 | hpos
  · rw [← h0, roundFloat_zero]; exact roundFloat_nonneg p (le_trans hx hxy)
  · have hy : 0 < y := lt_of_lt_of_le hpos hxy
    have hbx := binade_of_ne_zero x (ne_of_gt hpos)
    have hby := binade_of_ne_zero y (ne_of_gt hy)
    rw [abs_of_pos hpos] at hbx
    rw [abs_of_pos hy] at hby
    have hlog : Int.log 2 x ≤ Int.log 2 y := Int.log_mono_right hpos hxy
    rcases eq_or_lt_of_le hlog with heq | hlt
    · rw [roundFloat_of_binade p x (Int.log 2 x) (by rw [abs_of_pos hpos]; exact hbx.1)
          (by rw [abs_of_pos hpos]; exact hbx.2),
        roundFloat_of_binade p y (Int.log 2 x) (by rw [abs_of_pos hy, heq]; exact hby.1)
          (by rw [abs_of_pos hy, heq]; exact hby.2)]
      have hu := two_zpow_pos (Int.log 2 x - p + 1)
      have hm := cvRound_mono (div_le_div_of_nonneg_right hxy (le_of_lt hu))
      exact mul_le_mul_of_nonneg_right (by exact_mod_cast hm) (le_of_lt hu)
    · have h1 := (roundFloat_binade p hp x _ hbx.1 hbx.2).2
      have h2 := (roundFloat_binade p hp y _ hby.1 hby.2).1
      have h3 : (2 : ℚ) ^ (Int.log 2 x + 1) ≤ 2 ^ Int.log 2 y :=
        zpow_le_zpow_right₀ (by norm_num) (by omega)
      linarith

/-- Bounds of a rounding of a non-negative number by its relative error. -/
theorem roundFloat_bounds (p : Nat) {x : ℚ} (hx : 0 ≤ x) :
    x * (1 - 2 ^ (-(p : ℤ))) ≤ roundFloat p x ∧ roundFloat p x ≤ x * (1 + 2 ^ (-(p : ℤ))) := by
  have h := abs_le.mp (roundFloat_rel_err p x)
  rw [abs_of_nonneg hx] at h
  constructor <;> nlinarith [h.1, h.2]

/-! ### Representable numbers -/

theorem isFloat_zero (p : Nat) : IsFloat p 0 :=
  ⟨0, 0, by simp, by simp⟩

/-- A representable number is its own rounding. -/
theorem roundFloat_of_isFloat (p : Nat) {x : ℚ} (h : IsFloat p x) : roundFloat p x = x := by
  obtain ⟨m, k, hm, rfl⟩ := h
  by_cases hm0 : m = 0
  · subst hm0; simp [roundFloat_zero]
  · have hx : (m : ℚ) * 2 ^ k ≠ 0 :=
      mul_ne_zero (by exact_mod_cast hm0) (ne_of_gt (two_zpow_pos k))
    have hb := binade_of_ne_zero _ hx
    set e := Int.log 2 |(m : ℚ) * 2 ^ k| with he
    have habs : |(m : ℚ) * 2 ^ k| = |(m : ℚ)| * 2 ^ k := by
      rw [abs_mul, abs_of_pos (two_zpow_pos k)]
    have hlt : |(m : ℚ)| < 2 ^ (p : ℤ) := by
      rw [zpow_natCast]
      exact_mod_cast hm
    have h1 : (2 : ℚ) ^ e < 2 ^ ((p : ℤ) + k) := by
      rw [zpow_add₀ (by norm_num : (2 : ℚ) ≠ 0)]
      calc (2 : ℚ) ^ e ≤ |(m : ℚ)| * 2 ^ k := by rw [← habs]; exact hb.1
        _ < 2 ^ (p : ℤ) * 2 ^ k := mul_lt_mul_of_pos_right hlt (two_zpow_pos k)
    have h2 : e < (p : ℤ) + k := (zpow_lt_zpow_iff_right₀ (by norm_num : (1 : ℚ) < 2)).mp h1
    obtain ⟨j, hj⟩ : ∃ j : ℕ, (j : ℤ) = k - (e - p + 1) := ⟨(k - (e - p + 1)).toNat, by omega⟩
    have hdiv : (m : ℚ) * 2 ^ k / 2 ^ (e - p + 1) = ((m * 2 ^ j : ℤ) : ℚ) := by
      push_cast
      rw [mul_div_assoc, ← zpow_sub₀ (by norm_num : (2 : ℚ) ≠ 0), ← hj, zpow_natCast]
    rw [roundFloat_of_binade p _ e hb.1 hb.2, hdiv, cvRound_intCast]
    push_cast
    rw [mul_assoc, ← zpow_natCast (2 : ℚ) j, ← zpow_add₀ (by norm_num : (2 : ℚ) ≠ 0), hj]
    congr 2
    ring

/-- A representable number that is at least `2 ^ (j - 1)` is a multiple of `2 ^ (j - p)`. -/
theorem IsFloat.grid {p : Nat} {x : ℚ} (h : IsFloat p x) (j : ℤ) (hx : 2 ^ (j - 1) ≤ x) :
    ∃ N : ℤ, x = N * 2 ^ (j - p) := by
  obtain ⟨m, k, hm, rfl⟩ := h
  have hpos : (0 : ℚ) < (m : ℚ) * 2 ^ k := lt_of_lt_of_le (two_zpow_pos _) hx
  have hmpos : (0 : ℚ) < m := by
    by_contra hneg
    have : (m : ℚ) * 2 ^ k ≤ 0 :=
      mul_nonpos_of_nonpos_of_nonneg (not_lt.mp hneg) (le_of_lt (two_zpow_pos k))
    linarith
  have hlt : (m : ℚ) < 2 ^ (p : ℤ) := by
    rw [zpow_natCast]
    have : m < 2 ^ p := lt_of_le_of_lt (le_abs_self m) hm
    exact_mod_cast this
  have h1 : (2 : ℚ) ^ (j - 1) < 2 ^ ((p : ℤ) + k) := by
    rw [zpow_add₀ (by norm_num : (2 : ℚ) ≠ 0)]
    exact lt_of_le_of_lt hx (mul_lt_mul_of_pos_right hlt (two_zpow_pos k))
  have h2 : j - 1 < (p : ℤ) + k := (zpow_lt_zpow_iff_right₀ (by norm_num : (1 : ℚ) < 2)).mp h1
  obtain ⟨i, hi⟩ : ∃ i : ℕ, (i : ℤ) = k - (j - p) := ⟨(k - (j - p)).toNat, by omega⟩
  refine ⟨m * 2 ^ i, ?_⟩
  push_cast
  rw [mul_assoc, ← zpow_natCast (2 : ℚ) i, ← zpow_add₀ (by norm_num : (2 : ℚ) ≠ 0), hi]
  congr 2
  ring

theorem isFloat_intCast (p : Nat) (n : ℤ) (h : |n| < 2 ^ p) : IsFloat p (n : ℚ) :=
  ⟨n, 0, h, by simp⟩

/-- The rounding of a number is representable. -/
theorem roundFloat_isFloat (p : Nat) (hp : 1 ≤ p) (x : ℚ) : IsFloat p (roundFloat p x) := by
  obtain ⟨q, rfl⟩ : ∃ q, p = q + 1 := ⟨p - 1, by omega⟩
  by_cases hx : x = 0
  · subst hx; rw [roundFloat_zero]; exact isFloat_zero _
  · have hb := binade_of_ne_zero x hx
    set e := Int.log 2 |x| with he
    have hu := two_zpow_pos (e - (q + 1 : Nat) + 1)
    rw [roundFloat_of_binade (q + 1) x e hb.1 hb.2]
    have habs := abs_lt.mp hb.2
    have hup : cvRound (x / 2 ^ (e - (q + 1 : Nat) + 1)) ≤ 2 ^ (q + 1) := by
      have h1 : x / 2 ^ (e - (q + 1 : Nat) + 1) ≤ ((2 ^ (q + 1) : ℤ) : ℚ) := by
        rw [div_le_iff₀ hu, two_pow_succ_mul_ulp]; exact le_of_lt habs.2
      have h2 := cvRound_mono h1
      rwa [cvRound_intCast] at h2
    have hlo : -(2 ^ (q + 1) : ℤ) ≤ cvRound (x / 2 ^ (e - (q + 1 : Nat) + 1)) := by
      have h1 : ((-(2 ^ (q + 1)) : ℤ) : ℚ) ≤ x / 2 ^ (e - (q + 1 : Nat) + 1) := by
        rw [le_div_iff₀ hu]
        have := two_pow_succ_mul_ulp q e
        push_cast at this ⊢
        linarith [habs.1]
      have h2 := cvRound_mono h1
      rwa [cvRound_intCast] at h2
    set n := cvRound (x / 2 ^ (e - (q + 1 : Nat) + 1)) with hn
    by_cases hlt : |n| < 2 ^ (q + 1)
    · exact ⟨n, _, hlt, rfl⟩
    · have hcases : n = 2 ^ (q + 1) ∨ n = -(2 ^ (q + 1)) := by
        rcases le_or_lt 0 n with h0 | h0
        · left
          rw [abs_of_nonneg h0] at hlt
          omega
        · right
          rw [abs_of_neg h0] at hlt
          omega
      have hone : |(1 : ℤ)| < 2 ^ (q + 1) := by
        rw [abs_one]
        exact one_lt_pow₀ (by norm_num) (by omega)
      rcases hcases with h | h
      · refine ⟨1, e + 1, hone, ?_⟩
        rw [h, two_pow_succ_mul_ulp]; simp
      · refine ⟨-1, e + 1, by simpa using hone, ?_⟩
        rw [h]
        have := two_pow_succ_mul_ulp q e
        push_cast at this ⊢
        linarith

/-- Evaluation of the rounding of a positive number `x` with
`2 ^ e ≤ x < 2 ^ (e + 1)`: it is the multiple `n * u` of the unit in the last
place `u` that is nearer to `x` than half a unit. -/
theorem roundFloat_eval (p : Nat) (x : ℚ) (e n : ℤ) (u : ℚ) (hu : u = 2 ^ (e - p + 1))
    (h1 : 2 ^ e ≤ x) (h2 : x < 2 ^ (e + 1)) (h3 : (2 * n - 1) * u < 2 * x)
    (h4 : 2 * x < (2 * n + 1) * u) : roundFloat p x = n * u := by
  subst hu
  have hx : 0 < x := lt_of_lt_of_le (two_zpow_pos e) h1
  have hu := two_zpow_pos (e - p + 1)
  refine roundFloat_eq_of p x e n (by rw [abs_of_pos hx]; exact h1)
    (by rw [abs_of_pos hx]; exact h2) ?_
  rw [abs_lt]
  constructor
  · have : (n : ℚ) - 1 / 2 < x / 2 ^ (e - p + 1) := by
      rw [lt_div_iff₀ hu]; linarith
    linarith
  · have : x / 2 ^ (e - p + 1) < (n : ℚ) + 1 / 2 := by
      rw [div_lt_iff₀ hu]; linarith
    linarith

theorem rd64_nonneg {x : ℚ} (h : 0 ≤ x) : 0 ≤ rd64 x := roundFloat_nonneg 53 h

theorem rd64_mono {x y : ℚ} (hx : 0 ≤ x) (hxy : x ≤ y) : rd64 x ≤ rd64 y :=
  roundFloat_mono 53 (by norm_num) hx hxy

theorem rd32_zero : rd32 0 = 0 := roundFloat_zero 24

theorem rd64_zero : rd64 0 = 0 := roundFloat_zero 53

theorem rd32_intCast (n : ℤ) (h : |n| < 2 ^ 24) : rd32 (n : ℚ) = n :=
  roundFloat_of_isFloat 24 (isFloat_intCast 24 n h)

theorem rd64_intCast (n : ℤ) (h : |n| < 2 ^ 53) : rd64 (n : ℚ) = n :=
  roundFloat_of_isFloat 53 (isFloat_intCast 53 n h)

/-- The rounding of a representable number given as `m / 2 ^ k`. -/
theorem roundFloat_dyadic (p : Nat) (m : ℤ) (k : Nat) (h : |m| < 2 ^ p) :
    roundFloat p ((m : ℚ) / 2 ^ k) = (m : ℚ) / 2 ^ k :=
  roundFloat_of_isFloat p ⟨m, -(k : ℤ), h, by rw [zpow_neg, zpow_natCast]; rfl⟩

/-! ## `computePriorityMap` -/

/-! ### The loops of `computePriorityMap` -/

/-- C2 (evaluation of the code at the 1 x 2 photometric map with the values
0.0 and 1.0): at the pixel with value 1.0 the conversion of line 73 gives the
8-bit value 1, not `trunc(255 * 1.0) = 255`; the threshold at 200 then leaves
the pixel background (0), although the rescaled value 255 exceeds 200. -/
theorem binaryMask_no_rescale :
    (convertTo8U ⟨1, 2, fun _ x => if x = 0 then 0 else 1⟩ 1).px 0 1 = 1 ∧
    rescale8USpec 1 = 255 ∧
    200 < rescale8USpec 1 ∧
    (binaryMask ⟨1, 2, fun _ x => if x = 0 then 0 else 1⟩).px 0 1 = 0 := by
  have h1 : saturateU8 1 = 1 := by
    have : cvRound 1 = 1 := by norm_num [cvRound]
    unfold saturateU8
    rw [this]; decide
  have h2 : rescale8USpec 1 = 255 := by
    unfold rescale8USpec
    norm_num
    rfl
  refine ⟨?_, h2, by rw [h2]; decide, ?_⟩
  · simp [convertTo8U, Mat.map, h1]
  · simp [binaryMask, threshold, convertTo8U, Mat.map, h1]

/-! ### C3 -/

/-- The `double` that the macro `CV_PI` denotes. -/
theorem rd64_pi_literal : rd64 ((3.1415926535897932384626433832795 : ℚ)) = 884279719003555 / 281474976710656 := by
  unfold rd64
  rw [roundFloat_eval 53 ((3.1415926535897932384626433832795 : ℚ)) (1) 7074237752028440 (1 / 2 ^ 51) (by norm_num) (by norm_num)
    (by norm_num) (by norm_num) (by norm_num)]
  norm_num

/-- The literal `1.2`. -/
theorem rd64_clamp_literal : rd64 ((1.2 : ℚ)) = 5404319552844595 / 4503599627370496 := by
  unfold rd64
  rw [roundFloat_eval 53 ((1.2 : ℚ)) (0) 5404319552844595 (1 / 2 ^ 52) (by norm_num) (by norm_num)
    (by norm_num) (by norm_num) (by norm_num)]
  norm_num

theorem rd64_four_pi : rd64 ((4 : ℚ) * (884279719003555 / 281474976710656)) = 884279719003555 / 70368744177664 := by
  unfold rd64
  rw [roundFloat_eval 53 ((4 : ℚ) * (884279719003555 / 281474976710656)) (3) 7074237752028440 (1 / 2 ^ 49) (by norm_num) (by norm_num)
    (by norm_num) (by norm_num) (by norm_num)]
  norm_num

theorem rd64_four_pi_area : rd64 ((884279719003555 / 70368744177664 : ℚ) * 1) = 884279719003555 / 70368744177664 := by
  unfold rd64
  rw [roundFloat_eval 53 ((884279719003555 / 70368744177664 : ℚ) * 1) (3) 7074237752028440 (1 / 2 ^ 49) (by norm_num) (by norm_num)
    (by norm_num) (by norm_num) (by norm_num)]
  norm_num

theorem rd64_sixteen : rd64 ((4 : ℚ) * 4) = 16 := by
  unfold rd64
  rw [roundFloat_eval 53 ((4 : ℚ) * 4) (4) 4503599627370496 (1 / 2 ^ 48) (by norm_num) (by norm_num)
    (by norm_num) (by norm_num) (by norm_num)]
  norm_num

theorem rd64_quarter_pi : rd64 ((884279719003555 / 70368744177664 : ℚ) / 16) = 884279719003555 / 1125899906842624 := by
  unfold rd64
  rw [roundFloat_eval 53 ((884279719003555 / 70368744177664 : ℚ) / 16) (-1) 7074237752028440 (1 / 2 ^ 53) (by norm_num) (by norm_num)
    (by norm_num) (by norm_num) (by norm_num)]
  norm_num

theorem rd32_quarter_pi : rd32 ((884279719003555 / 1125899906842624 : ℚ)) = 13176795 / 16777216 := by
  unfold rd32
  rw [roundFloat_eval 24 ((884279719003555 / 1125899906842624 : ℚ)) (-1) 13176795 (1 / 2 ^ 24) (by norm_num) (by norm_num)
    (by norm_num) (by norm_num) (by norm_num)]
  norm_num

theorem geometricLoop_append (sqrtF : ℚ → ℚ) (filled : Contour → Nat → Nat → Bool)
    (pre post : List Contour) (contour : Contour) (ggeo : Mat ℚ) :
    geometricLoop sqrtF filled (pre ++ contour :: post) ggeo =
      geometricLoop sqrtF filled post
        (geometricStep sqrtF filled (geometricLoop sqrtF filled pre ggeo) contour) := by
  unfold geometricLoop
  rw [List.foldl_append, List.foldl_cons]

/-- A discarded contour leaves the map as it is. -/
theorem geometricStep_discard (sqrtF : ℚ → ℚ) (filled : Contour → Nat → Nat → Bool)
    (ggeo : Mat ℚ) (contour : Contour)
    (h : contourArea contour < 1 ∨ arcLength sqrtF contour < 4) :
    geometricStep sqrtF filled ggeo contour = ggeo := by
  unfold geometricStep
  simp only [h, if_true]

/-- A surviving contour writes its clamped circularity into its filled
interior and nothing else. -/
theorem geometricStep_keep (sqrtF : ℚ → ℚ) (filled : Contour → Nat → Nat → Bool)
    (ggeo : Mat ℚ) (contour : Contour)
    (h : ¬ (contourArea contour < 1 ∨ arcLength sqrtF contour < 4)) (y x : Nat) :
    (geometricStep sqrtF filled ggeo contour).px y x =
      if filled contour y x
      then rd32 (circularityOf (contourArea contour) (arcLength sqrtF contour))
      else ggeo.px y x := by
  unfold geometricStep
  simp only [h, if_false]
  rfl

/-- The loop leaves a pixel as it is when no surviving contour covers it. -/
theorem geometricLoop_unpainted (sqrtF : ℚ → ℚ) (filled : Contour → Nat → Nat → Bool)
    (l : List Contour) (ggeo : Mat ℚ) (y x : Nat)
    (h : ∀ c ∈ l, filled c y x = true → contourArea c < 1 ∨ arcLength sqrtF c < 4) :
    (geometricLoop sqrtF filled l ggeo).px y x = ggeo.px y x := by
  induction l generalizing ggeo with
  | nil => rfl
  | cons c l ih =>
    have hstep : (geometricStep sqrtF filled ggeo c).px y x = ggeo.px y x := by
      by_cases hd : contourArea c < 1 ∨ arcLength sqrtF c < 4
      · rw [geometricStep_discard sqrtF filled ggeo c hd]
      · rw [geometricStep_keep sqrtF filled ggeo c hd]
        have hf : filled c y x = false := by
          by_contra hne
          exact hd (h c (List.mem_cons_self c l) (by simpa using hne))
        simp [hf]
    have := ih (geometricStep sqrtF filled ggeo c)
      (fun c2 hc2 => h c2 (List.mem_cons_of_mem c hc2))
    unfold geometricLoop at this ⊢
    rw [List.foldl_cons, this, hstep]

/-- A `double` exceeds the literal `1.2` exactly when it exceeds 1.2. -/
theorem double_gt_clamp_literal (c : ℚ) (hc : IsFloat 53 c) : c > rd64 1.2 ↔ c > 1.2 := by
  rw [rd64_clamp_literal]
  constructor
  · intro h
    have h1 : (2 : ℚ) ^ ((1 : ℤ) - 1) ≤ c := by
      have : (2 : ℚ) ^ ((1 : ℤ) - 1) ≤ 5404319552844595 / 4503599627370496 := by norm_num
      exact le_trans this h.le
    obtain ⟨N, hN⟩ := hc.grid 1 h1
    have hu : (2 : ℚ) ^ ((1 : ℤ) - (53 : ℕ)) = 1 / 4503599627370496 := by norm_num
    rw [hu] at hN
    have h2 : (5404319552844595 : ℚ) < N := by
      have h3 : (5404319552844595 / 4503599627370496 : ℚ) < N * (1 / 4503599627370496) := by
        rw [← hN]; exact h
      norm_num at h3
      linarith
    have h4 : (5404319552844595 : ℤ) < N := by exact_mod_cast h2
    have h5 : (5404319552844596 : ℚ) ≤ N := by
      have : (5404319552844596 : ℤ) ≤ N := by omega
      exact_mod_cast this
    rw [hN, gt_iff_lt]
    have h6 : (1.2 : ℚ) < 5404319552844596 * (1 / 4503599627370496) := by norm_num
    linarith
  · intro h
    have : (5404319552844595 / 4503599627370496 : ℚ) < 1.2 := by norm_num
    exact lt_trans this h

/-- The clamp of line 86 in terms of the raw value of line 85. -/
theorem circularityOf_eq (a p : ℚ) :
    (circularity a p ≤ 1.2 → circularityOf a p = circularity a p) ∧
    (circularity a p > 1.2 → circularityOf a p = 1) := by
  have hfl : IsFloat 53 (circularity a p) := roundFloat_isFloat 53 (by norm_num) _
  have hiff := double_gt_clamp_literal (circularity a p) hfl
  unfold circularityOf
  exact ⟨fun h => if_neg (fun hgt => not_lt.mpr h (hiff.mp hgt)), fun h => if_pos (hiff.mpr h)⟩

/-- The raw value of line 85 spelled out. -/
theorem circularity_eq (a p : ℚ) :
    circularity a p = rd64 (rd64 (rd64 (4 * rd64 CV_PI) * a) / rd64 (p * p)) := by
  have h4 : (4.0 : ℚ) = 4 := by norm_num
  unfold circularity
  rw [h4]

/-- C3: let `contour` be a region that `computeGeometricMap` processes, after
the contours `pre` and before the contours `post`, with area `a` and
perimeter `p`.  The returned map is the loop over `post` applied to the map
that the loop body makes of the map left by `pre`.  If `a < 1` or `p < 4` the
region is discarded and paints nothing: the loop body leaves the map as it
is, and the returned map is the one computed without the region.  Otherwise
the value painted at each pixel of its filled interior is the raw value
`4.0 * CV_PI * a / (p * p)` (computed in `double` at line 85 and stored in the
`float` map) when that raw value is at most 1.2 and exactly 1 when it exceeds
1.2, this is the value of the returned map there unless a later surviving
region covers the pixel, and the pixels outside the interior are left as they
are. -/
theorem computeGeometricMap_paints (findContours : Mat Nat → List Contour) (sqrtF : ℚ → ℚ)
    (filled : Contour → Nat → Nat → Bool) (gphoto : Mat ℚ) (pre post : List Contour)
    (contour : Contour)
    (hsplit : findContours (binaryMask gphoto) = pre ++ contour :: post)
    (a p : ℚ) (ha : contourArea contour = a) (hp : arcLength sqrtF contour = p) :
    computeGeometricMap findContours sqrtF filled gphoto =
      geometricLoop sqrtF filled post
        (geometricStep sqrtF filled
          (geometricLoop sqrtF filled pre (Mat.const gphoto.rows gphoto.cols 0)) contour) ∧
    ((a < 1 ∨ p < 4) →
      geometricStep sqrtF filled
          (geometricLoop sqrtF filled pre (Mat.const gphoto.rows gphoto.cols 0)) contour
        = geometricLoop sqrtF filled pre (Mat.const gphoto.rows gphoto.cols 0) ∧
      computeGeometricMap findContours sqrtF filled gphoto =
        geometricLoop sqrtF filled (pre ++ post) (Mat.const gphoto.rows gphoto.cols 0)) ∧
    (¬ (a < 1 ∨ p < 4) → ∀ y x : Nat,
      (filled contour y x = true →
        (rd64 (rd64 (rd64 (4 * rd64 CV_PI) * a) / rd64 (p * p)) ≤ 1.2 →
          (geometricStep sqrtF filled
              (geometricLoop sqrtF filled pre (Mat.const gphoto.rows gphoto.cols 0))
              contour).px y x
            = rd32 (rd64 (rd64 (rd64 (4 * rd64 CV_PI) * a) / rd64 (p * p)))) ∧
        (rd64 (rd64 (rd64 (4 * rd64 CV_PI) * a) / rd64 (p * p)) > 1.2 →
          (geometricStep sqrtF filled
              (geometricLoop sqrtF filled pre (Mat.const gphoto.rows gphoto.cols 0))
              contour).px y x = 1) ∧
        ((∀ c ∈ post, filled c y x = true → contourArea c < 1 ∨ arcLength sqrtF c < 4) →
          (rd64 (rd64 (rd64 (4 * rd64 CV_PI) * a) / rd64 (p * p)) ≤ 1.2 →
            (computeGeometricMap findContours sqrtF filled gphoto).px y x
              = rd32 (rd64 (rd64 (rd64 (4 * rd64 CV_PI) * a) / rd64 (p * p)))) ∧
          (rd64 (rd64 (rd64 (4 * rd64 CV_PI) * a) / rd64 (p * p)) > 1.2 →
            (computeGeometricMap findContours sqrtF filled gphoto).px y x = 1))) ∧
      (filled contour y x = false →
        (geometricStep sqrtF filled
            (geometricLoop sqrtF filled pre (Mat.const gphoto.rows gphoto.cols 0))
            contour).px y x
          = (geometricLoop sqrtF filled pre (Mat.const gphoto.rows gphoto.cols 0)).px y x)) := by
  subst ha hp
  have hloop : computeGeometricMap findContours sqrtF filled gphoto =
      geometricLoop sqrtF filled post
        (geometricStep sqrtF filled
          (geometricLoop sqrtF filled pre (Mat.const gphoto.rows gphoto.cols 0)) contour) := by
    unfold computeGeometricMap
    rw [hsplit, geometricLoop_append]
  have hone : rd32 1 = 1 := by simpa using rd32_intCast 1 (by norm_num)
  refine ⟨hloop, ?_, ?_⟩
  · intro hd
    have hstep := geometricStep_discard sqrtF filled
      (geometricLoop sqrtF filled pre (Mat.const gphoto.rows gphoto.cols 0)) contour hd
    refine ⟨hstep, ?_⟩
    rw [hloop, hstep]
    unfold geometricLoop
    rw [List.foldl_append]
  · intro hk y x
    have hstep := geometricStep_keep sqrtF filled
      (geometricLoop sqrtF filled pre (Mat.const gphoto.rows gphoto.cols 0)) contour hk y x
    have hc := circularityOf_eq (contourArea contour) (arcLength sqrtF contour)
    rw [circularity_eq] at hc
    constructor
    · intro hf
      rw [hf, if_pos rfl] at hstep
      refine ⟨fun hle => by rw [hstep, hc.1 hle], fun hgt => by rw [hstep, hc.2 hgt, hone], ?_⟩
      intro hpost
      have hfin : (computeGeometricMap findContours sqrtF filled gphoto).px y x
          = rd32 (circularityOf (contourArea contour) (arcLength sqrtF contour)) := by
        rw [hloop, geometricLoop_unpainted sqrtF filled post _ y x hpost, hstep]
      exact ⟨fun hle => by rw [hfin, hc.1 hle], fun hgt => by rw [hfin, hc.2 hgt, hone]⟩
    · intro hf
      rw [hf] at hstep
      simpa using hstep

theorem rd32_one : rd32 1 = 1 := by
  simpa using rd32_intCast 1 (by norm_num)

theorem rd64_one : rd64 1 = 1 := by
  simpa using rd64_intCast 1 (by norm_num)

theorem rd64_two : rd64 2 = 2 := by
  simpa using rd64_intCast 2 (by norm_num)

theorem rd64_three : rd64 3 = 3 := by
  simpa using rd64_intCast 3 (by norm_num)

theorem rd64_four : rd64 4 = 4 := by
  simpa using rd64_intCast 4 (by norm_num)

theorem sqrtSample_one : sqrtSample 1 = 1 := by
  have h := Rat.sqrt_eq 1
  simp only [mul_one] at h
  exact h

/-- The contour of one point has area 0. -/
theorem contourArea_point : contourArea [(0, 0)] = 0 := by
  simp [contourArea, closedEdges]

/-- The square of side 1 has area 1. -/
theorem contourArea_square : contourArea [(0, 0), (0, 1), (1, 1), (1, 0)] = 1 := by
  simp [contourArea, closedEdges]
  norm_num

/-- The square of side 1 has perimeter 4. -/
theorem arcLength_square : arcLength sqrtSample [(0, 0), (0, 1), (1, 1), (1, 0)] = 4 := by
  simp [arcLength, closedEdges, rd32_zero, rd32_one, sqrtSample_one, rd64_one]
  norm_num [rd64_two, rd64_three, rd64_four]

/-- The raw value of line 85 for area 1 and perimeter 4: a quarter of the
`double` that `CV_PI` denotes. -/
theorem circularity_square :
    rd64 (rd64 (rd64 (4 * rd64 CV_PI) * 1) / rd64 (4 * 4))
      = 884279719003555 / 1125899906842624 := by
  unfold CV_PI
  rw [rd64_pi_literal, rd64_four_pi, rd64_four_pi_area, rd64_sixteen, rd64_quarter_pi]

/-- C3 at the contours of one point and of the square of side 1: the point
(area 0) is discarded, so the returned map is the one computed from the square
alone; the square (area 1, perimeter 4) paints the `float` nearest to its raw
circularity, `13176795 / 2^24`. -/
theorem computeGeometricMap_paints_witness :
    computeGeometricMap (fun _ => [[(0, 0)], [(0, 0), (0, 1), (1, 1), (1, 0)]]) sqrtSample
        (fun _ _ _ => true) (Mat.const 2 2 0)
      = geometricLoop sqrtSample (fun _ _ _ => true) [[(0, 0), (0, 1), (1, 1), (1, 0)]]
          (Mat.const 2 2 0) ∧
    (computeGeometricMap (fun _ => [[(0, 0)], [(0, 0), (0, 1), (1, 1), (1, 0)]]) sqrtSample
        (fun _ _ _ => true) (Mat.const 2 2 0)).px 0 0
      = rd32 (rd64 (rd64 (rd64 (4 * rd64 CV_PI) * 1) / rd64 (4 * 4))) ∧
    rd32 (rd64 (rd64 (rd64 (4 * rd64 CV_PI) * 1) / rd64 (4 * 4))) = 13176795 / 16777216 :=
  ⟨((computeGeometricMap_paints (fun _ => [[(0, 0)], [(0, 0), (0, 1), (1, 1), (1, 0)]])
      sqrtSample (fun _ _ _ => true) (Mat.const 2 2 0) [] [[(0, 0), (0, 1), (1, 1), (1, 0)]]
      [(0, 0)] rfl 0 0 contourArea_point (by simp [arcLength])).2.1
      (Or.inl (by norm_num))).2,
    ((((computeGeometricMap_paints (fun _ => [[(0, 0)], [(0, 0), (0, 1), (1, 1), (1, 0)]])
      sqrtSample (fun _ _ _ => true) (Mat.const 2 2 0) [[(0, 0)]] []
      [(0, 0), (0, 1), (1, 1), (1, 0)] rfl 1 4 contourArea_square arcLength_square).2.2
      (by norm_num) 0 0).1 rfl).2.2
      (fun _ h => absurd h (List.not_mem_nil _))).1
      (by rw [circularity_square]; norm_num),
    by rw [circularity_square, rd32_quarter_pi]⟩

/-! ### C10 -/

/-- The border mode maps every index to a pixel of the line. -/
theorem borderInterpolate_lt (p : ℤ) (len : Nat) (h : 0 < len) :
    borderInterpolate p len < len := by
  unfold borderInterpolate
  by_cases h1 : len ≤ 1
  · rw [if_pos h1]; exact h
  · rw [if_neg h1]
    have hpos : (0 : ℤ) < 2 * ((len : ℤ) - 1) := by omega
    have hlt := Int.emod_lt_of_pos p hpos
    have hnn := Int.emod_nonneg p (ne_of_gt hpos)
    simp only
    generalize p % (2 * ((len : ℤ) - 1)) = q at *
    split_ifs <;> omega

/-- The window of `boxFilter` has `ksize * ksize` pixels. -/
theorem window_card (k : Nat) : (Finset.range k ×ˢ Finset.range k).card = k * k := by
  simp [Finset.card_product]

/-- The local variance (the argument of the square root) is never negative. -/
theorem localVariance_nonneg (intensity : Mat ℚ) (y x : Nat) :
    0 ≤ (localVariance intensity).px y x := by
  unfold localVariance boxFilter Mat.zipWith
  simp only
  set s := Finset.range 17 ×ˢ Finset.range 17 with hs
  set f : Nat × Nat → ℚ := fun d =>
    intensity.px (borderInterpolate ((y : ℤ) + d.1 - (17 / 2 : Nat)) intensity.rows)
      (borderInterpolate ((x : ℤ) + d.2 - (17 / 2 : Nat)) intensity.cols) with hf
  have hcs : (∑ d in s, f d) ^ 2 ≤ (s.card : ℚ) * ∑ d in s, f d ^ 2 :=
    sq_sum_le_card_mul_sum_sq
  have hcard : (s.card : ℚ) = 289 := by
    rw [hs, window_card]; norm_num
  rw [hcard] at hcs
  have hsq : (∑ d in s, f d * f d) = ∑ d in s, f d ^ 2 :=
    Finset.sum_congr rfl (fun d _ => (pow_two (f d)).symm)
  show 0 ≤ (∑ d in s, f d * f d) / ((17 : ℕ) * (17 : ℕ) : ℚ)
    - (∑ d in s, f d) / ((17 : ℕ) * (17 : ℕ) : ℚ) * ((∑ d in s, f d) / ((17 : ℕ) * (17 : ℕ) : ℚ))
  rw [hsq]
  have h289 : ((17 : ℕ) * (17 : ℕ) : ℚ) = 289 := by norm_num
  rw [h289]
  have : (∑ d in s, f d ^ 2) / 289 - (∑ d in s, f d) / 289 * ((∑ d in s, f d) / 289)
      = (289 * ∑ d in s, f d ^ 2 - (∑ d in s, f d) ^ 2) / 289 ^ 2 := by
    field_simp; ring
  rw [this]
  apply div_nonneg
  · linarith
  · norm_num

/-- The local mean of a map with non-negative pixels is non-negative. -/
theorem boxFilter_nonneg (src : Mat ℚ) (k : Nat)
    (h0 : ∀ y < src.rows, ∀ x < src.cols, 0 ≤ src.px y x)
    (y x : Nat) (hy : y < src.rows) (hx : x < src.cols) :
    0 ≤ (boxFilter src k).px y x := by
  have hr : 0 < src.rows := by omega
  have hcl : 0 < src.cols := by omega
  unfold boxFilter
  simp only
  apply div_nonneg
  · exact Finset.sum_nonneg (fun d _ =>
      h0 _ (borderInterpolate_lt _ _ hr) _ (borderInterpolate_lt _ _ hcl))
  · positivity

theorem mem_pixels {α : Type} (m : Mat α) (v : α) :
    v ∈ m.pixels ↔ ∃ y, y < m.rows ∧ ∃ x, x < m.cols ∧ m.px y x = v := by
  simp [Mat.pixels, List.mem_flatMap, List.mem_map, List.mem_range]

theorem length_pixels {α : Type} (m : Mat α) : m.pixels.length = m.rows * m.cols := by
  simp [Mat.pixels, List.length_flatMap, Function.comp_def]

/-- The pixel sum of an 8-bit matrix whose pixels all equal `g`. -/
theorem pixelSum_const (m : Mat Nat) (g : Nat)
    (h : ∀ y < m.rows, ∀ x < m.cols, m.px y x = g) :
    pixelSum m = ((m.rows * m.cols : Nat) : ℚ) * g := by
  unfold pixelSum
  have hrep : (m.pixels.map fun (v : Nat) => (v : ℚ)) = List.replicate (m.rows * m.cols) (g : ℚ) := by
    rw [List.eq_replicate_iff]
    refine ⟨by rw [List.length_map, length_pixels], ?_⟩
    intro b hb
    obtain ⟨v, hv, rfl⟩ := List.mem_map.mp hb
    obtain ⟨y, hy, x, hx, rfl⟩ := (mem_pixels m v).mp hv
    rw [h y hy x hx]
  rw [hrep, List.sum_replicate, nsmul_eq_mul]

/-- The pixel sum of an 8-bit matrix lies between 0 and 255 times the number
of pixels. -/
theorem pixelSum_bounds (m : Mat Nat) (h : ∀ y < m.rows, ∀ x < m.cols, m.px y x ≤ 255) :
    0 ≤ pixelSum m ∧ pixelSum m ≤ ((m.rows * m.cols : Nat) : ℚ) * 255 := by
  unfold pixelSum
  constructor
  · apply List.sum_nonneg
    intro b hb
    obtain ⟨v, _, rfl⟩ := List.mem_map.mp hb
    exact Nat.cast_nonneg v
  · have hle := List.sum_le_card_nsmul (m.pixels.map fun (v : Nat) => (v : ℚ)) 255 (by
      intro b hb
      obtain ⟨v, hv, rfl⟩ := List.mem_map.mp hb
      obtain ⟨y, hy, x, hx, rfl⟩ := (mem_pixels m v).mp hv
      exact_mod_cast h y hy x hx)
    rw [List.length_map, length_pixels, nsmul_eq_mul] at hle
    exact hle

theorem bgr2gray_le (p : Pixel) : bgr2gray p ≤ 255 := by
  have hb := p.b.isLt
  have hg := p.g.isLt
  have hr := p.r.isLt
  unfold bgr2gray
  omega

theorem cvtColorGray_some (frame : Mat Pixel) (hr : 0 < frame.rows) (hc : 0 < frame.cols) :
    cvtColorGray frame = some (frame.map bgr2gray) := by
  unfold cvtColorGray
  rw [if_neg]
  omega

/-- The `double` scale `1. / n` times `n` is within `2^-53` of 1. -/
theorem scale_bounds (n : Nat) (hn : 0 < n) :
    1 - 1 / 2 ^ 53 ≤ (n : ℚ) * rd64 (1 / (n : ℚ)) ∧
    (n : ℚ) * rd64 (1 / (n : ℚ)) ≤ 1 + 1 / 2 ^ 53 := by
  have hn0 : (0 : ℚ) < n := by exact_mod_cast hn
  have hb := roundFloat_bounds 53 (le_of_lt (one_div_pos.mpr hn0))
  have hu : (2 : ℚ) ^ (-((53 : ℕ) : ℤ)) = 1 / 2 ^ 53 := by norm_num
  rw [hu] at hb
  have h1 : (n : ℚ) * (1 / (n : ℚ)) = 1 := by field_simp
  unfold rd64
  constructor
  · have := mul_le_mul_of_nonneg_left hb.1 (le_of_lt hn0)
    rw [← mul_assoc, h1] at this
    linarith
  · have := mul_le_mul_of_nonneg_left hb.2 (le_of_lt hn0)
    rw [← mul_assoc, h1] at this
    linarith

theorem isBrightArea_some (frame : Mat Pixel) (hr : 0 < frame.rows) (hc : 0 < frame.cols) :
    isBrightArea frame = some (rd64 (rd64 (pixelSum (frame.map bgr2gray)
      * rd64 (1 / ((frame.rows * frame.cols : Nat) : ℚ))) / 255)) := by
  unfold isBrightArea
  rw [cvtColorGray_some frame hr hc]
  rfl

/-! ### C7 -/

/-- C7 (the value is not exactly 1): on the all-white frame of 480 x 640
pixels the `double` scale `1. / 307200` is rounded up, the mean is
`255 + 2^-45`, and `isBrightArea` returns `1 + 2^-52`: not 1, and above 1. -/
theorem isBrightArea_white_vga :
    isBrightArea (Mat.const 480 640 ⟨255, 255, 255⟩) = some (1 + 1 / 2 ^ 52) ∧
    (1 : ℚ) < 1 + 1 / 2 ^ 52 := by
  have hr : rd64 ((1 : ℚ) / 307200) = 7686143364045647 / 2361183241434822606848 := by
    unfold rd64
    rw [roundFloat_eval 53 ((1 : ℚ) / 307200) (-19) 7686143364045647 (1 / 2 ^ 71) (by norm_num) (by norm_num)
      (by norm_num) (by norm_num) (by norm_num)]
    norm_num
  have hm : rd64 ((78336000 : ℚ) * (7686143364045647 / 2361183241434822606848)) = 8972014882652161 / 35184372088832 := by
    unfold rd64
    rw [roundFloat_eval 53 ((78336000 : ℚ) * (7686143364045647 / 2361183241434822606848)) (7) 8972014882652161 (1 / 2 ^ 45) (by norm_num) (by norm_num)
      (by norm_num) (by norm_num) (by norm_num)]
    norm_num
  have hv : rd64 ((8972014882652161 / 35184372088832 : ℚ) / 255) = 4503599627370497 / 4503599627370496 := by
    unfold rd64
    rw [roundFloat_eval 53 ((8972014882652161 / 35184372088832 : ℚ) / 255) (0) 4503599627370497 (1 / 2 ^ 52) (by norm_num) (by norm_num)
      (by norm_num) (by norm_num) (by norm_num)]
    norm_num
  have hsum : pixelSum ((Mat.const 480 640 (⟨255, 255, 255⟩ : Pixel)).map bgr2gray)
      = 78336000 := by
    rw [pixelSum_const _ 255
      (fun _ _ _ _ => by show bgr2gray (⟨255, 255, 255⟩ : Pixel) = 255; rfl)]
    norm_num [Mat.map, Mat.const]
  have hn : (((Mat.const 480 640 (⟨255, 255, 255⟩ : Pixel)).rows
      * (Mat.const 480 640 (⟨255, 255, 255⟩ : Pixel)).cols : Nat) : ℚ) = 307200 := by
    norm_num [Mat.const]
  refine ⟨?_, by norm_num⟩
  rw [isBrightArea_some _ (by decide) (by decide), hsum, hn, hr, hm, hv]
  norm_num

/-- C7 (amended): for every non-empty frame, `isBrightArea` returns exactly 0
when every pixel is (0, 0, 0); when every pixel is (255, 255, 255) it returns
a value within `2^-52` of 1 (not always 1); and in every case a value in
`[0, 1 + 2^-52]`. -/
theorem isBrightArea_range (frame : Mat Pixel) (hr : 0 < frame.rows) (hc : 0 < frame.cols) :
    ((∀ y < frame.rows, ∀ x < frame.cols, frame.px y x = ⟨0, 0, 0⟩) →
      isBrightArea frame = some 0) ∧
    ((∀ y < frame.rows, ∀ x < frame.cols, frame.px y x = ⟨255, 255, 255⟩) →
      ∃ v : ℚ, isBrightArea frame = some v ∧ 1 - 1 / 2 ^ 52 ≤ v ∧ v ≤ 1 + 1 / 2 ^ 52) ∧
    (∃ v : ℚ, isBrightArea frame = some v ∧ 0 ≤ v ∧ v ≤ 1 + 1 / 2 ^ 52) := by
  have hsome := isBrightArea_some frame hr hc
  have hnpos : 0 < frame.rows * frame.cols := Nat.mul_pos hr hc
  have hn0 : (0 : ℚ) < ((frame.rows * frame.cols : Nat) : ℚ) := by exact_mod_cast hnpos
  have hsc := scale_bounds (frame.rows * frame.cols) hnpos
  have hrnn : 0 ≤ rd64 (1 / ((frame.rows * frame.cols : Nat) : ℚ)) :=
    rd64_nonneg (le_of_lt (one_div_pos.mpr hn0))
  have hb := pixelSum_bounds (frame.map bgr2gray) (fun y _ x _ => bgr2gray_le _)
  have hb2 : pixelSum (frame.map bgr2gray) ≤ ((frame.rows * frame.cols : Nat) : ℚ) * 255 := hb.2
  have hhi : rd64 (255 + 1 / 2 ^ 45) = 255 + 1 / 2 ^ 45 := by
    have h := roundFloat_dyadic 53 8972014882652161 45 (by norm_num)
    have e : ((8972014882652161 : ℤ) : ℚ) / 2 ^ 45 = 255 + 1 / 2 ^ 45 := by norm_num
    rw [e] at h
    exact h
  have hone : rd64 (1 + 1 / 2 ^ 52) = 1 + 1 / 2 ^ 52 := by
    have h := roundFloat_dyadic 53 4503599627370497 52 (by norm_num)
    have e : ((4503599627370497 : ℤ) : ℚ) / 2 ^ 52 = 1 + 1 / 2 ^ 52 := by norm_num
    rw [e] at h
    exact h
  have hupper : rd64 (rd64 (pixelSum (frame.map bgr2gray)
      * rd64 (1 / ((frame.rows * frame.cols : Nat) : ℚ))) / 255) ≤ 1 + 1 / 2 ^ 52 := by
    have h1 : pixelSum (frame.map bgr2gray) * rd64 (1 / ((frame.rows * frame.cols : Nat) : ℚ))
        ≤ 255 + 1 / 2 ^ 45 := by
      calc pixelSum (frame.map bgr2gray) * rd64 (1 / ((frame.rows * frame.cols : Nat) : ℚ))
          ≤ ((frame.rows * frame.cols : Nat) : ℚ) * 255
              * rd64 (1 / ((frame.rows * frame.cols : Nat) : ℚ)) :=
            mul_le_mul_of_nonneg_right hb2 hrnn
        _ = 255 * (((frame.rows * frame.cols : Nat) : ℚ)
              * rd64 (1 / ((frame.rows * frame.cols : Nat) : ℚ))) := by ring
        _ ≤ 255 * (1 + 1 / 2 ^ 53) := mul_le_mul_of_nonneg_left hsc.2 (by norm_num)
        _ ≤ 255 + 1 / 2 ^ 45 := by norm_num
    have h2 := rd64_mono (mul_nonneg hb.1 hrnn) h1
    rw [hhi] at h2
    have h3 : rd64 (pixelSum (frame.map bgr2gray)
        * rd64 (1 / ((frame.rows * frame.cols : Nat) : ℚ))) / 255 ≤ 1 + 1 / 2 ^ 52 := by
      rw [div_le_iff₀ (by norm_num : (0 : ℚ) < 255)]
      have : (255 : ℚ) + 1 / 2 ^ 45 ≤ (1 + 1 / 2 ^ 52) * 255 := by norm_num
      linarith
    have h4 := rd64_mono (div_nonneg (rd64_nonneg (mul_nonneg hb.1 hrnn)) (by norm_num)) h3
    rwa [hone] at h4
  have hlower : 0 ≤ rd64 (rd64 (pixelSum (frame.map bgr2gray)
      * rd64 (1 / ((frame.rows * frame.cols : Nat) : ℚ))) / 255) :=
    rd64_nonneg (div_nonneg (rd64_nonneg (mul_nonneg hb.1 hrnn)) (by norm_num))
  refine ⟨?_, ?_, ⟨_, hsome, hlower, hupper⟩⟩
  · intro h
    have hs : pixelSum (frame.map bgr2gray) = 0 := by
      rw [pixelSum_const (frame.map bgr2gray) 0
        (fun y hy x hx => by show bgr2gray (frame.px y x) = 0; rw [h y hy x hx]; rfl)]
      simp
    rw [hsome, hs, zero_mul, rd64_zero, zero_div, rd64_zero]
  · intro h
    refine ⟨_, hsome, ?_, hupper⟩
    have hs : pixelSum (frame.map bgr2gray) = ((frame.rows * frame.cols : Nat) : ℚ) * 255 := by
      rw [pixelSum_const (frame.map bgr2gray) 255
        (fun y hy x hx => by show bgr2gray (frame.px y x) = 255; rw [h y hy x hx]; rfl)]
      norm_num [Mat.map]
    have hlo : rd64 (255 - 1 / 2 ^ 45) = 255 - 1 / 2 ^ 45 := by
      have h := roundFloat_dyadic 53 8972014882652159 45 (by norm_num)
      have e : ((8972014882652159 : ℤ) : ℚ) / 2 ^ 45 = 255 - 1 / 2 ^ 45 := by norm_num
      rw [e] at h
      exact h
    have hone2 : rd64 (1 - 1 / 2 ^ 52) = 1 - 1 / 2 ^ 52 := by
      have h := roundFloat_dyadic 53 4503599627370495 52 (by norm_num)
      have e : ((4503599627370495 : ℤ) : ℚ) / 2 ^ 52 = 1 - 1 / 2 ^ 52 := by norm_num
      rw [e] at h
      exact h
    have h1 : 255 - 1 / 2 ^ 45 ≤ pixelSum (frame.map bgr2gray)
        * rd64 (1 / ((frame.rows * frame.cols : Nat) : ℚ)) := by
      rw [hs]
      calc (255 : ℚ) - 1 / 2 ^ 45 ≤ 255 * (1 - 1 / 2 ^ 53) := by norm_num
        _ ≤ 255 * (((frame.rows * frame.cols : Nat) : ℚ)
              * rd64 (1 / ((frame.rows * frame.cols : Nat) : ℚ))) :=
            mul_le_mul_of_nonneg_left hsc.1 (by norm_num)
        _ = _ := by ring
    have h2 := rd64_mono (by norm_num : (0 : ℚ) ≤ 255 - 1 / 2 ^ 45) h1
    rw [hlo] at h2
    have h3 : 1 - 1 / 2 ^ 52 ≤ rd64 (pixelSum (frame.map bgr2gray)
        * rd64 (1 / ((frame.rows * frame.cols : Nat) : ℚ))) / 255 := by
      rw [le_div_iff₀ (by norm_num : (0 : ℚ) < 255)]
      have : ((1 : ℚ) - 1 / 2 ^ 52) * 255 ≤ 255 - 1 / 2 ^ 45 := by norm_num
      linarith
    have h4 := rd64_mono (by norm_num : (0 : ℚ) ≤ 1 - 1 / 2 ^ 52) h3
    rwa [hone2] at h4

/-- C7 (amended) at the black frame of 2 x 3 pixels. -/
theorem isBrightArea_range_witness :
    isBrightArea (Mat.const 2 3 ⟨0, 0, 0⟩) = some 0 :=
  (isBrightArea_range (Mat.const 2 3 ⟨0, 0, 0⟩) (by decide) (by decide)).1
    (fun _ _ _ _ => rfl)

/-! ### C8 -/

theorem sqrtDown_zero : sqrtDown 0 = 0 := by
  simp [sqrtDown]

theorem sqrtDown_mono (a b : ℚ) (_ha : 0 ≤ a) (hab : a ≤ b) : sqrtDown a ≤ sqrtDown b := by
  unfold sqrtDown
  apply div_le_div_of_nonneg_right _ (by positivity)
  have h1 : ⌊a * 4 ^ 64⌋₊ ≤ ⌊b * 4 ^ 64⌋₊ :=
    Nat.floor_mono (mul_le_mul_of_nonneg_right hab (by positivity))
  exact_mod_cast Nat.sqrt_le_sqrt h1

/-- The sample square root is exact at `2^-34`. -/
theorem sqrtDown_pow34 : sqrtDown (1 / 2 ^ 34) = 1 / 2 ^ 17 := by
  unfold sqrtDown
  have h1 : ((1 : ℚ) / 2 ^ 34 * 4 ^ 64) = ((2 ^ 47 * 2 ^ 47 : ℕ) : ℚ) := by norm_num
  rw [h1, Nat.floor_natCast, Nat.sqrt_eq]
  norm_num

/-- The sample square root is exact at `2^-38`. -/
theorem sqrtDown_pow38 : sqrtDown (1 / 2 ^ 38) = 1 / 2 ^ 19 := by
  unfold sqrtDown
  have h1 : ((1 : ℚ) / 2 ^ 38 * 4 ^ 64) = ((2 ^ 45 * 2 ^ 45 : ℕ) : ℚ) := by norm_num
  rw [h1, Nat.floor_natCast, Nat.sqrt_eq]
  norm_num

theorem isStandardArea_some (sqrtF : ℚ → ℚ) (frame : Mat Pixel) (hr : 0 < frame.rows)
    (hc : 0 < frame.cols) :
    isStandardArea sqrtF frame = some (rd64 (sqrtF (max (rd64
      (rd64 (pixelSum ((frame.map bgr2gray).map fun v => v * v)
          * rd64 (1 / ((frame.rows * frame.cols : Nat) : ℚ)))
        - rd64 (rd64 (pixelSum (frame.map bgr2gray)
              * rd64 (1 / ((frame.rows * frame.cols : Nat) : ℚ)))
            * rd64 (pixelSum (frame.map bgr2gray)
              * rd64 (1 / ((frame.rows * frame.cols : Nat) : ℚ)))))) 0) / 128)) := by
  unfold isStandardArea
  rw [cvtColorGray_some frame hr hc]
  show some (rd64 ((meanStdDev sqrtF (frame.map bgr2gray)).2 / 128.0)) = _
  have h128 : (128.0 : ℚ) = 128 := by norm_num
  rw [h128]
  rfl

theorem rd64_pow (k : Nat) : rd64 (1 / 2 ^ k) = 1 / 2 ^ k := by
  have h := roundFloat_dyadic 53 1 k (by
    rw [abs_one]; exact one_lt_pow₀ (by norm_num) (by norm_num))
  simpa [rd64] using h

/-- C8 (the value is not exactly 0): on the frame of 480 x 640 pixels of colour
(170, 170, 170) the `double` products `sqsum * scale` and `mean * mean` differ
by `2^-38`, and `isStandardArea` (with a square root that is exact at `2^-38`)
returns `2^-26`, not 0. -/
theorem isStandardArea_gray_vga :
    isStandardArea sqrtDown (Mat.const 480 640 ⟨170, 170, 170⟩) = some (1 / 2 ^ 26) ∧
    (1 : ℚ) / 2 ^ 26 ≠ 0 := by
  have hr : rd64 ((1 : ℚ) / 307200) = 7686143364045647 / 2361183241434822606848 := by
    unfold rd64
    rw [roundFloat_eval 53 ((1 : ℚ) / 307200) (-19) 7686143364045647 (1 / 2 ^ 71) (by norm_num) (by norm_num)
      (by norm_num) (by norm_num) (by norm_num)]
    norm_num
  have hs : rd64 ((52224000 : ℚ) * (7686143364045647 / 2361183241434822606848)) = 170 := by
    unfold rd64
    rw [roundFloat_eval 53 ((52224000 : ℚ) * (7686143364045647 / 2361183241434822606848)) (7) 5981343255101440 (1 / 2 ^ 45) (by norm_num) (by norm_num)
      (by norm_num) (by norm_num) (by norm_num)]
    norm_num
  have hsq : rd64 ((8878080000 : ℚ) * (7686143364045647 / 2361183241434822606848)) = 7943971510681601 / 274877906944 := by
    unfold rd64
    rw [roundFloat_eval 53 ((8878080000 : ℚ) * (7686143364045647 / 2361183241434822606848)) (14) 7943971510681601 (1 / 2 ^ 38) (by norm_num) (by norm_num)
      (by norm_num) (by norm_num) (by norm_num)]
    norm_num
  have hmm : rd64 ((170 : ℚ) * (170)) = 28900 := by
    unfold rd64
    rw [roundFloat_eval 53 ((170 : ℚ) * (170)) (14) 7943971510681600 (1 / 2 ^ 38) (by norm_num) (by norm_num)
      (by norm_num) (by norm_num) (by norm_num)]
    norm_num
  have hsum : pixelSum ((Mat.const 480 640 (⟨170, 170, 170⟩ : Pixel)).map bgr2gray)
      = 52224000 := by
    rw [pixelSum_const _ 170
      (fun _ _ _ _ => by show bgr2gray (⟨170, 170, 170⟩ : Pixel) = 170; rfl)]
    norm_num [Mat.map, Mat.const]
  have hsqsum : pixelSum (((Mat.const 480 640 (⟨170, 170, 170⟩ : Pixel)).map bgr2gray).map
      fun v => v * v) = 8878080000 := by
    rw [pixelSum_const _ 28900
      (fun _ _ _ _ => by
        show bgr2gray (⟨170, 170, 170⟩ : Pixel) * bgr2gray (⟨170, 170, 170⟩ : Pixel) = 28900
        rfl)]
    norm_num [Mat.map, Mat.const]
  have hn : (((Mat.const 480 640 (⟨170, 170, 170⟩ : Pixel)).rows
      * (Mat.const 480 640 (⟨170, 170, 170⟩ : Pixel)).cols : Nat) : ℚ) = 307200 := by
    norm_num [Mat.const]
  have hd : (7943971510681601 / 274877906944 : ℚ) - 28900 = 1 / 2 ^ 38 := by norm_num
  have hmax : max ((1 : ℚ) / 2 ^ 38) 0 = 1 / 2 ^ 38 := max_eq_left (by positivity)
  have hq : (1 : ℚ) / 2 ^ 19 / 128 = 1 / 2 ^ 26 := by norm_num
  refine ⟨?_, by norm_num⟩
  rw [isStandardArea_some _ _ (by decide) (by decide), hsum, hsqsum, hn, hr, hs, hsq, hmm, hd,
    rd64_pow, hmax, sqrtDown_pow38, hq, rd64_pow]

/-- C8 (amended): for every non-empty frame whose every pixel is the colour
`(b, g, r)`, `isStandardArea` (with a square root that is monotone, sends 0
to 0 and is exact at `2^-34`) returns a value between 0 and `2^-24`; it
returns exactly 0 when the colour is (0, 0, 0). -/
theorem isStandardArea_const (sqrtF : ℚ → ℚ) (hs : sqrtF 0 = 0)
    (hmono : ∀ a b : ℚ, 0 ≤ a → a ≤ b → sqrtF a ≤ sqrtF b)
    (h34 : sqrtF (1 / 2 ^ 34) = 1 / 2 ^ 17) (frame : Mat Pixel)
    (hr : 0 < frame.rows) (hc : 0 < frame.cols) (p : Pixel)
    (hp : ∀ y < frame.rows, ∀ x < frame.cols, frame.px y x = p) :
    (∃ v : ℚ, isStandardArea sqrtF frame = some v ∧ 0 ≤ v ∧ v ≤ 1 / 2 ^ 24) ∧
    (p = ⟨0, 0, 0⟩ → isStandardArea sqrtF frame = some 0) := by
  have hsome := isStandardArea_some sqrtF frame hr hc
  have hnpos : 0 < frame.rows * frame.cols := Nat.mul_pos hr hc
  have hsc := scale_bounds (frame.rows * frame.cols) hnpos
  have hG : bgr2gray p ≤ 255 := bgr2gray_le p
  have hG0 : (0 : ℚ) ≤ (bgr2gray p : ℚ) := Nat.cast_nonneg _
  have hG1 : ((bgr2gray p : ℕ) : ℚ) ≤ 255 := by exact_mod_cast hG
  have hsum : pixelSum (frame.map bgr2gray)
      = ((frame.rows * frame.cols : Nat) : ℚ) * (bgr2gray p : ℕ) :=
    pixelSum_const (frame.map bgr2gray) (bgr2gray p)
      (fun y hy x hx => by show bgr2gray (frame.px y x) = _; rw [hp y hy x hx])
  have hsq : pixelSum ((frame.map bgr2gray).map fun v => v * v)
      = ((frame.rows * frame.cols : Nat) : ℚ) * ((bgr2gray p * bgr2gray p : ℕ) : ℚ) :=
    pixelSum_const ((frame.map bgr2gray).map fun v => v * v) (bgr2gray p * bgr2gray p)
      (fun y hy x hx => by
        show bgr2gray (frame.px y x) * bgr2gray (frame.px y x) = _
        rw [hp y hy x hx])
  set t := ((frame.rows * frame.cols : Nat) : ℚ)
    * rd64 (1 / ((frame.rows * frame.cols : Nat) : ℚ)) with ht
  set G : ℚ := ((bgr2gray p : ℕ) : ℚ) with hGdef
  have hu : (2 : ℚ) ^ (-((53 : ℕ) : ℤ)) = 1 / 2 ^ 53 := by norm_num
  have e1 : pixelSum (frame.map bgr2gray) * rd64 (1 / ((frame.rows * frame.cols : Nat) : ℚ))
      = G * t := by rw [hsum, ht]; ring
  have e2 : pixelSum ((frame.map bgr2gray).map fun v => v * v)
        * rd64 (1 / ((frame.rows * frame.cols : Nat) : ℚ)) = G * G * t := by
    rw [hsq, ht]; push_cast; ring
  rw [e1, e2] at hsome
  have ht0 : 0 ≤ t := by linarith [hsc.1]
  -- the mean
  have hs1 := roundFloat_bounds 53 (mul_nonneg hG0 ht0)
  rw [hu] at hs1
  have hslo : G * (1 - 1 / 2 ^ 53) * (1 - 1 / 2 ^ 53) ≤ rd64 (G * t) := by
    have : G * (1 - 1 / 2 ^ 53) ≤ G * t := mul_le_mul_of_nonneg_left hsc.1 hG0
    have h2 : G * (1 - 1 / 2 ^ 53) * (1 - 1 / 2 ^ 53) ≤ G * t * (1 - 1 / 2 ^ 53) :=
      mul_le_mul_of_nonneg_right this (by norm_num)
    exact le_trans h2 hs1.1
  have hslo0 : 0 ≤ G * (1 - 1 / 2 ^ 53) * (1 - 1 / 2 ^ 53) :=
    mul_nonneg (mul_nonneg hG0 (by norm_num)) (by norm_num)
  have hsnn : 0 ≤ rd64 (G * t) := le_trans hslo0 hslo
  -- the product mean * mean
  have hmm1 := roundFloat_bounds 53 (mul_nonneg hsnn hsnn)
  rw [hu] at hmm1
  have hmmlo : G * G * ((1 - 1 / 2 ^ 53) ^ 5) ≤ rd64 (rd64 (G * t) * rd64 (G * t)) := by
    have hsqr : G * (1 - 1 / 2 ^ 53) * (1 - 1 / 2 ^ 53)
        * (G * (1 - 1 / 2 ^ 53) * (1 - 1 / 2 ^ 53)) ≤ rd64 (G * t) * rd64 (G * t) :=
      mul_le_mul hslo hslo hslo0 hsnn
    have h2 := mul_le_mul_of_nonneg_right hsqr (by norm_num : (0 : ℚ) ≤ 1 - 1 / 2 ^ 53)
    have h3 : G * G * ((1 - 1 / 2 ^ 53) ^ 5)
        = G * (1 - 1 / 2 ^ 53) * (1 - 1 / 2 ^ 53)
          * (G * (1 - 1 / 2 ^ 53) * (1 - 1 / 2 ^ 53)) * (1 - 1 / 2 ^ 53) := by ring
    rw [h3]
    exact le_trans h2 hmm1.1
  -- the mean of the squares
  have hq1 := roundFloat_bounds 53 (mul_nonneg (mul_nonneg hG0 hG0) ht0)
  rw [hu] at hq1
  have hqhi : rd64 (G * G * t) ≤ G * G * ((1 + 1 / 2 ^ 53) ^ 2) := by
    have : G * G * t ≤ G * G * (1 + 1 / 2 ^ 53) :=
      mul_le_mul_of_nonneg_left hsc.2 (mul_nonneg hG0 hG0)
    have h2 : G * G * t * (1 + 1 / 2 ^ 53) ≤ G * G * (1 + 1 / 2 ^ 53) * (1 + 1 / 2 ^ 53) :=
      mul_le_mul_of_nonneg_right this (by norm_num)
    have h3 : G * G * ((1 + 1 / 2 ^ 53) ^ 2) = G * G * (1 + 1 / 2 ^ 53) * (1 + 1 / 2 ^ 53) := by
      ring
    rw [h3]
    exact le_trans hq1.2 h2
  -- the variance
  have hGG : G * G ≤ 65025 := by nlinarith
  have hdiff : rd64 (G * G * t) - rd64 (rd64 (G * t) * rd64 (G * t)) ≤ 1 / 2 ^ 34 := by
    have hbr : (0 : ℚ) ≤ (1 + 1 / 2 ^ 53) ^ 2 - (1 - 1 / 2 ^ 53) ^ 5 := by norm_num
    have h1 : rd64 (G * G * t) - rd64 (rd64 (G * t) * rd64 (G * t))
        ≤ G * G * ((1 + 1 / 2 ^ 53) ^ 2 - (1 - 1 / 2 ^ 53) ^ 5) := by
      rw [mul_sub]; linarith
    have h2 : G * G * ((1 + 1 / 2 ^ 53) ^ 2 - (1 - 1 / 2 ^ 53) ^ 5)
        ≤ 65025 * ((1 + 1 / 2 ^ 53) ^ 2 - (1 - 1 / 2 ^ 53) ^ 5) :=
      mul_le_mul_of_nonneg_right hGG hbr
    have h3 : (65025 : ℚ) * ((1 + 1 / 2 ^ 53) ^ 2 - (1 - 1 / 2 ^ 53) ^ 5) ≤ 1 / 2 ^ 34 := by
      norm_num
    linarith
  have hvar : 0 ≤ max (rd64 (rd64 (G * G * t) - rd64 (rd64 (G * t) * rd64 (G * t)))) 0 ∧
      max (rd64 (rd64 (G * G * t) - rd64 (rd64 (G * t) * rd64 (G * t)))) 0 ≤ 1 / 2 ^ 34 := by
    refine ⟨le_max_right _ _, max_le ?_ (by positivity)⟩
    rcases le_or_lt 0 (rd64 (G * G * t) - rd64 (rd64 (G * t) * rd64 (G * t))) with h | h
    · have := rd64_mono h hdiff
      rwa [rd64_pow] at this
    · exact le_trans (roundFloat_nonpos 53 (le_of_lt h)) (by positivity)
  have hstd0 : 0 ≤ sqrtF (max (rd64 (rd64 (G * G * t)
      - rd64 (rd64 (G * t) * rd64 (G * t)))) 0) := by
    have := hmono 0 _ (le_refl 0) hvar.1
    rwa [hs] at this
  have hstd1 : sqrtF (max (rd64 (rd64 (G * G * t)
      - rd64 (rd64 (G * t) * rd64 (G * t)))) 0) ≤ 1 / 2 ^ 17 := by
    have := hmono _ _ hvar.1 hvar.2
    rwa [h34] at this
  constructor
  · refine ⟨_, hsome, rd64_nonneg (div_nonneg hstd0 (by norm_num)), ?_⟩
    have h1 : sqrtF (max (rd64 (rd64 (G * G * t)
        - rd64 (rd64 (G * t) * rd64 (G * t)))) 0) / 128 ≤ 1 / 2 ^ 24 := by
      rw [div_le_iff₀ (by norm_num : (0 : ℚ) < 128)]
      have : (1 : ℚ) / 2 ^ 17 = 1 / 2 ^ 24 * 128 := by norm_num
      linarith
    have := rd64_mono (div_nonneg hstd0 (by norm_num)) h1
    rwa [rd64_pow] at this
  · intro hblack
    have hGz : G = 0 := by
      rw [hGdef, hblack]
      norm_num [bgr2gray]
    rw [hsome, hGz]
    simp [rd64_zero, hs]

/-- C8 (amended) at the 2 x 3 frame of colour (10, 200, 30). -/
theorem isStandardArea_const_witness :
    ∃ v : ℚ, isStandardArea sqrtDown (Mat.const 2 3 ⟨10, 200, 30⟩) = some v ∧ 0 ≤ v ∧
      v ≤ 1 / 2 ^ 24 :=
  (isStandardArea_const sqrtDown sqrtDown_zero sqrtDown_mono sqrtDown_pow34
    (Mat.const 2 3 ⟨10, 200, 30⟩) (by decide) (by decide) ⟨10, 200, 30⟩
    (fun _ _ _ _ => rfl)).1

/-! ## `computePhotometricMap` -/

/-! ### Minimum and maximum of the pixels -/

/-- The map that `cv::normalize(src, dst, 0.0, 1.0, NORM_MINMAX)` returns, in
terms of the extrema of the pixels. -/
theorem normalizeMinMax_eq (src : Mat ℚ) (v : ℚ) (vs : List ℚ) (hpix : src.pixels = v :: vs) :
    normalizeMinMax src 0.0 1.0 = src.map fun w =>
      rd32 (rd32 (w * rd32 (rd64 (1 * (if rd64 (vs.foldl max v - vs.foldl min v) > DBL_EPSILON
          then rd64 (1 / rd64 (vs.foldl max v - vs.foldl min v)) else 0))))
        + rd32 (rd32 0 - rd32 (rd64 (vs.foldl min v
          * rd32 (rd64 (1 * (if rd64 (vs.foldl max v - vs.foldl min v) > DBL_EPSILON
            then rd64 (1 / rd64 (vs.foldl max v - vs.foldl min v)) else 0))))))) := by
  have hmin : min (0.0 : ℚ) 1.0 = 0 := by norm_num
  have hmax : max (0.0 : ℚ) 1.0 - 0 = 1 := by norm_num
  unfold normalizeMinMax
  rw [hpix]
  simp only [hmin, hmax]

/-- When the minimum is not 0 the normalization can exceed 1: the map of the
two `float` values of the gray levels 1 and 21 (`8421505 / 2^31` and
`11053225 / 2^27`) is normalized with the scale `51 / 4` and the shift
`-6710887 / 2^27`, and its maximum is `1 + 2^-23`. -/
theorem normalizeMinMax_overshoot :
    (normalizeMinMax
      ⟨1, 2, fun _ x => if x = 0 then 8421505 / 2147483648 else 11053225 / 134217728⟩
      0.0 1.0).px 0 1 = 1 + 1 / 2 ^ 23 := by
  have hd : rd64 ((11053225 / 134217728 : ℚ) - 8421505 / 2147483648) = 168430095 / 2147483648 := by
    unfold rd64
    rw [roundFloat_eval 53 ((11053225 / 134217728 : ℚ) - 8421505 / 2147483648) (-4) 5651576169431040 (1 / 2 ^ 56) (by norm_num) (by norm_num)
      (by norm_num) (by norm_num) (by norm_num)]
    norm_num
  have hinv : rd64 ((1 : ℚ) / (168430095 / 2147483648)) = 3588805847359491 / 281474976710656 := by
    unfold rd64
    rw [roundFloat_eval 53 ((1 : ℚ) / (168430095 / 2147483648)) (3) 7177611694718982 (1 / 2 ^ 49) (by norm_num) (by norm_num)
      (by norm_num) (by norm_num) (by norm_num)]
    norm_num
  have hinv2 : rd64 ((1 : ℚ) * (3588805847359491 / 281474976710656)) = 3588805847359491 / 281474976710656 := by
    unfold rd64
    rw [roundFloat_eval 53 ((1 : ℚ) * (3588805847359491 / 281474976710656)) (3) 7177611694718982 (1 / 2 ^ 49) (by norm_num) (by norm_num)
      (by norm_num) (by norm_num) (by norm_num)]
    norm_num
  have hsc : rd32 ((3588805847359491 / 281474976710656 : ℚ)) = 51 / 4 := by
    unfold rd32
    rw [roundFloat_eval 24 ((3588805847359491 / 281474976710656 : ℚ)) (3) 13369344 (1 / 2 ^ 20) (by norm_num) (by norm_num)
      (by norm_num) (by norm_num) (by norm_num)]
    norm_num
  have hls : rd64 ((8421505 / 2147483648 : ℚ) * (51 / 4)) = 429496755 / 8589934592 := by
    unfold rd64
    rw [roundFloat_eval 53 ((8421505 / 2147483648 : ℚ) * (51 / 4)) (-5) 7205759829934080 (1 / 2 ^ 57) (by norm_num) (by norm_num)
      (by norm_num) (by norm_num) (by norm_num)]
    norm_num
  have hls32 : rd32 ((429496755 / 8589934592 : ℚ)) = 6710887 / 134217728 := by
    unfold rd32
    rw [roundFloat_eval 24 ((429496755 / 8589934592 : ℚ)) (-5) 13421774 (1 / 2 ^ 28) (by norm_num) (by norm_num)
      (by norm_num) (by norm_num) (by norm_num)]
    norm_num
  have hhs : rd32 ((11053225 / 134217728 : ℚ) * (51 / 4)) = 8808039 / 8388608 := by
    unfold rd32
    rw [roundFloat_eval 24 ((11053225 / 134217728 : ℚ) * (51 / 4)) (0) 8808039 (1 / 2 ^ 23) (by norm_num) (by norm_num)
      (by norm_num) (by norm_num) (by norm_num)]
    norm_num
  have hout : rd32 ((8808039 / 8388608 : ℚ) + -(6710887 / 134217728)) = 8388609 / 8388608 := by
    unfold rd32
    rw [roundFloat_eval 24 ((8808039 / 8388608 : ℚ) + -(6710887 / 134217728)) (0) 8388609 (1 / 2 ^ 23) (by norm_num) (by norm_num)
      (by norm_num) (by norm_num) (by norm_num)]
    norm_num
  have hmin : List.foldl min (8421505 / 2147483648 : ℚ) [11053225 / 134217728]
      = 8421505 / 2147483648 := by
    rw [List.foldl_cons, List.foldl_nil, min_eq_left (by norm_num)]
  have hmax : List.foldl max (8421505 / 2147483648 : ℚ) [11053225 / 134217728]
      = 11053225 / 134217728 := by
    rw [List.foldl_cons, List.foldl_nil, max_eq_right (by norm_num)]
  have hneg : rd32 (0 - (6710887 / 134217728 : ℚ)) = -(6710887 / 134217728) := by
    rw [zero_sub]
    exact roundFloat_of_isFloat 24 ⟨-6710887, -27, by norm_num, by norm_num⟩
  have heps : (168430095 / 2147483648 : ℚ) > DBL_EPSILON := by norm_num [DBL_EPSILON]
  have hpix : (⟨1, 2, fun _ x => if x = 0 then 8421505 / 2147483648
      else 11053225 / 134217728⟩ : Mat ℚ).pixels
      = [8421505 / 2147483648, 11053225 / 134217728] := by
    simp [Mat.pixels, List.range_succ]
  rw [normalizeMinMax_eq _ (8421505 / 2147483648) [11053225 / 134217728] hpix]
  show rd32 (rd32 ((11053225 / 134217728 : ℚ)
        * rd32 (rd64 (1 * (if rd64 (List.foldl max (8421505 / 2147483648 : ℚ)
              [11053225 / 134217728]
            - List.foldl min (8421505 / 2147483648 : ℚ) [11053225 / 134217728]) > DBL_EPSILON
          then rd64 (1 / rd64 (List.foldl max (8421505 / 2147483648 : ℚ)
              [11053225 / 134217728]
            - List.foldl min (8421505 / 2147483648 : ℚ) [11053225 / 134217728])) else 0))))
      + rd32 (rd32 0 - rd32 (rd64 (List.foldl min (8421505 / 2147483648 : ℚ)
          [11053225 / 134217728]
        * rd32 (rd64 (1 * (if rd64 (List.foldl max (8421505 / 2147483648 : ℚ)
              [11053225 / 134217728]
            - List.foldl min (8421505 / 2147483648 : ℚ) [11053225 / 134217728]) > DBL_EPSILON
          then rd64 (1 / rd64 (List.foldl max (8421505 / 2147483648 : ℚ)
              [11053225 / 134217728]
            - List.foldl min (8421505 / 2147483648 : ℚ) [11053225 / 134217728]))
          else 0))))))) = _
  rw [hmin, hmax, hd, if_pos heps, hinv, hinv2, hsc, hls, hls32, rd32_zero, hneg, hhs, hout]
  norm_num

/-! ### Roundings used for `computePhotometricMap` -/

end GlareDetector
